import Mathlib

/-!
Verification development for the Shavian pangram solver
(`src/shavian_pangram.py`).  The Python program is shallowly embedded:

* words are `List Char`; the Python `Counter` of remaining letters is a
  `Multiset Char` (faithful because every decrement in the source is
  guarded by a positivity test, so counts never go below zero);
* the trie is an inductive `TrieNode` whose `children` assoc-list models
  the insertion-ordered Python dict;
* Python's stable `sorted` is modelled by `List.insertionSort`, which is
  also a stable sort and therefore produces the identical list for the
  total comparison functions used by the program;
* the mutually recursive backtracking search is embedded with an explicit
  fuel parameter (running out of fuel returns the state unchanged); all
  invariant theorems below are proved for every fuel value, and the
  top-level entry point supplies fuel `3 * card target + 3`, enough for
  the deepest possible call chain (each unit of remaining-letter count
  supports at most three nested calls);
* the mutable search state (`remaining`, `current_letters`,
  `current_words`, `solutions`) is threaded explicitly through the
  recursion, so the backtrack-and-restore discipline of the source
  becomes a provable restoration theorem.
-/

namespace Shav

/-- Model of a Shavian word: the sequence of its letters. -/
abbrev Word := List Char

/-- Model of a rarity-sorted anagram key. -/
abbrev Key := List Char

/-- Model of one word-slot of a solution: the (sorted, deduplicated) list of
words from `key_to_words` sharing one anagram key.  The Python program
renders this list as a single string (see `formatSlot`); the letter content
is what the claims are about, so solutions keep the structured list. -/
abbrev Slot := List Word

/-- Model of a node of the trie from `shavian_pangram.py` (`class TrieNode`):
an insertion-ordered mapping letter to child, the word-terminal flag
`is_word`, and the stored rarity-sorted `key` of a terminal node. -/
inductive TrieNode where
  | mk : List (Char × TrieNode) → Bool → Option Key → TrieNode

/-- Accessor for the child list of a trie node. -/
def TrieNode.children : TrieNode → List (Char × TrieNode)
  | .mk cs _ _ => cs

/-- Accessor for the word-terminal flag of a trie node. -/
def TrieNode.isWord : TrieNode → Bool
  | .mk _ w _ => w

/-- Accessor for the stored key of a trie node. -/
def TrieNode.key : TrieNode → Option Key
  | .mk _ _ k => k

/-- Model of `TrieNode()`'s constructor defaults: no children, not a word
ending, no key. -/
def emptyNode : TrieNode := .mk [] false none

/-- Lookup in the assoc-list model of a Python dict. -/
def lookupChild : List (Char × TrieNode) → Char → Option TrieNode
  | [], _ => none
  | (l, c) :: rest, x => if x = l then some c else lookupChild rest x

/-- Model of `node.children[letter] = v` on a Python dict: update in place if
the letter is present (its position is kept), otherwise append at the end
(insertion order). -/
def setChild : List (Char × TrieNode) → Char → TrieNode → List (Char × TrieNode)
  | [], x, v => [(x, v)]
  | (l, c) :: rest, x, v =>
      if x = l then (x, v) :: rest else (l, c) :: setChild rest x v

/-- Model of the walk inside `PangramSolver._add_key_to_trie`: follow the
remaining letters of the key, creating empty nodes on demand, and mark the
final node with `is_word = True` and the full key. -/
def addKeyGo (full : Key) : TrieNode → List Char → TrieNode
  | .mk cs _ _, [] => .mk cs true (some full)
  | .mk cs w k, l :: rest =>
      let child := (lookupChild cs l).getD emptyNode
      .mk (setChild cs l (addKeyGo full child rest)) w k

/-- Model of `PangramSolver._add_key_to_trie`. -/
def addKey (t : TrieNode) (k : Key) : TrieNode := addKeyGo k t k

/-- Comparison used for `PangramSolver._sort_trie_children` and for the
rarity sort of a word's letters: position in `letter_order`, letters absent
from `letter_order` sorting last.  `List.indexOf` returns the length of the
list for an absent element, exactly like the Python fallback
`len(self.letter_order)`. -/
def rarityLe (lo : List Char) (a b : Char) : Prop :=
  lo.indexOf a ≤ lo.indexOf b

instance (lo : List Char) : DecidableRel (rarityLe lo) :=
  fun _ _ => inferInstanceAs (Decidable (_ ≤ _))

/-- Model of `PangramSolver._sort_trie_children`: stably sort the children of
every node by letter rarity (Python's `sorted` is a stable sort, and so is
`List.insertionSort`). -/
def sortChildren (lo : List Char) (t : TrieNode) : TrieNode :=
  match t with
  | .mk cs w k =>
      .mk ((List.insertionSort (fun a b => rarityLe lo a.1 b.1) cs).attach.map
            (fun p => (p.1.1, sortChildren lo p.1.2))) w k
decreasing_by
  have h2 : p.1 ∈ cs := (List.mem_insertionSort _).mp p.2
  have h3 : sizeOf p.1 < sizeOf cs := List.sizeOf_lt_of_mem h2
  cases p with
  | mk a ha =>
    cases a with
    | mk l c =>
      simp at h3 ⊢
      omega

/-- Model of one `letter_counts.update` step of Python's `Counter`: increment
the count of a letter in place if present, otherwise append it with count 1
(Python dicts keep insertion order). -/
def insertCount : List (Char × Nat) → Char → List (Char × Nat)
  | [], c => [(c, 1)]
  | (d, n) :: rest, c =>
      if c = d then (d, n + 1) :: rest else (d, n) :: insertCount rest c

/-- Model of the `letter_counts` Counter accumulated over the filtered words
in `PangramSolver.build_trie` (step 1). -/
def countLetters (ws : List Word) : List (Char × Nat) :=
  ws.foldl (fun acc w => w.foldl insertCount acc) []

/-- Lookup of a letter's count in the counter model (0 if absent), used only
to state lemmas about `insertCount`. -/
def cntVal : List (Char × Nat) → Char → Nat
  | [], _ => 0
  | (d, n) :: rest, c => if c = d then n else cntVal rest c

/-- Model of the word filter of `PangramSolver.build_trie`: drop excluded
words, drop words with an excluded part-of-speech tag (Python skips only
when `exclude_pos` and the intersection are both non-empty, which is
equivalent to requiring every tag to avoid `exclude_pos`), and keep only
words whose letter set is a subset of the target letters. -/
def keepWord (targetLetters : List Char) (excludeWords : List Word)
    (posOf : Word → List String) (excludePos : List String) (w : Word) : Bool :=
  !(excludeWords.contains w) &&
    (posOf w).all (fun p => !(excludePos.contains p)) &&
    w.all (fun c => targetLetters.contains c)

/-- Model of the `filtered_words` list of `PangramSolver.build_trie`. -/
def filteredWords (shawWords : List Word) (posOf : Word → List String)
    (targetLetters : List Char) (excludeWords : List Word)
    (excludePos : List String) : List Word :=
  shawWords.filter (keepWord targetLetters excludeWords posOf excludePos)

/-- Model of `Counter.most_common()`: the counter's items stably sorted by
descending count. -/
def mostCommon (cnt : List (Char × Nat)) : List (Char × Nat) :=
  List.insertionSort (fun a b => b.2 ≤ a.2) cnt

/-- Model of `self.letter_order` as built in `PangramSolver.build_trie`
(step 2): the letters of `most_common()` with the list reversed, so the
rarest letter comes first. -/
def letterOrderOf (ws : List Word) : List Char :=
  ((mostCommon (countLetters ws)).map Prod.fst).reverse

/-- Model of the rarity-sorted key of a word (`build_trie`, step 3):
the word's letters stably sorted by their position in `letter_order`,
letters absent from `letter_order` sorting last. -/
def sortKey (lo : List Char) (w : Word) : Key :=
  List.insertionSort (rarityLe lo) w

/-- Lexicographic comparison of words by code point, the order Python's
`sorted` uses on strings. -/
def wordLe : Word → Word → Bool
  | [], _ => true
  | _ :: _, [] => false
  | a :: as, b :: bs => if a = b then wordLe as bs else decide (a < b)

/-- Propositional form of `wordLe`, used with `List.insertionSort`. -/
def wordLeP (a b : Word) : Prop := wordLe a b = true

instance : DecidableRel wordLeP :=
  fun _ _ => inferInstanceAs (Decidable (_ = true))

/-- Model of inserting one word into the `key_to_words_sets` dict of
`build_trie` (step 3): group by key, set-style deduplication inside a
group, insertion order of keys preserved. -/
def addToGroup (groups : List (Key × List Word)) (k : Key) (w : Word) :
    List (Key × List Word) :=
  match groups with
  | [] => [(k, [w])]
  | (k', ws) :: rest =>
      if k = k' then (k', if w ∈ ws then ws else ws ++ [w]) :: rest
      else (k', ws) :: addToGroup rest k w

/-- Model of `self.key_to_words` (`build_trie`, step 3): group the filtered
words by rarity-sorted key, then sort every group lexicographically
(`sorted(words)` over the deduplicating set). -/
def keyToWordsOf (lo : List Char) (ws : List Word) : List (Key × List Word) :=
  (ws.foldl (fun g w => addToGroup g (sortKey lo w) w) []).map
    (fun p => (p.1, List.insertionSort wordLeP p.2))

/-- Generic assoc-list lookup, model of `self.key_to_words.get(key, ...)`. -/
def lookupKey : List (Key × List Word) → Key → Option (List Word)
  | [], _ => none
  | (k, ws) :: rest, x => if x = k then some ws else lookupKey rest x

/-- Record of everything `PangramSolver.build_trie` stores on the solver:
`letter_order`, `key_to_words` and the sorted trie. -/
structure BuildOut where
  letterOrder : List Char
  keyToWords : List (Key × List Word)
  root : TrieNode

/-- Model of `PangramSolver.build_trie`: filter the lexicon, compute the
rarity order, group by anagram key, insert every key into the trie, and
finally sort all children by rarity. -/
def buildTrie (shawWords : List Word) (posOf : Word → List String)
    (targetLetters : List Char) (excludeWords : List Word)
    (excludePos : List String) : BuildOut :=
  let fw := filteredWords shawWords posOf targetLetters excludeWords excludePos
  let lo := letterOrderOf fw
  let ktw := keyToWordsOf lo fw
  let root := sortChildren lo ((ktw.map Prod.fst).foldl addKey emptyNode)
  ⟨lo, ktw, root⟩

/-- Rendering of one word-slot as done inside `_search_trie`: a single word
as-is, several anagrams bracketed and slash-joined. -/
def formatSlot (ws : Slot) : String :=
  match ws with
  | [w] => String.mk w
  | _ => "[" ++ String.intercalate " / " (ws.map String.mk) ++ "]"

/-- Static search context: the parts of the solver state the search only
reads (`letter_order`, the trie root, `key_to_words`). -/
structure Ctx where
  letterOrder : List Char
  root : TrieNode
  keyToWords : List (Key × List Word)

/-- State threaded through `_search` and `_find_words_from_root`: the
`remaining` Counter, the `current_words` path, and the `solutions`
accumulator. -/
structure SearchSt where
  remaining : Multiset Char
  currentWords : List Slot
  solutions : List (List Slot)
deriving DecidableEq

/-- State threaded through `_search_trie`, which additionally mutates the
`current_letters` path. -/
structure TrieSt where
  remaining : Multiset Char
  currentLetters : List Char
  currentWords : List Slot
  solutions : List (List Slot)
deriving DecidableEq

/-- Model of the result-cap test
`max_solutions is not None and len(solutions) >= max_solutions`. -/
def capReached : Option Nat → List (List Slot) → Bool
  | none, _ => false
  | some k, sols => k ≤ sols.length

/-- Model of the scan in `_find_words_from_root` that picks the first letter
of `letter_order` with a positive remaining count (`None` when the scan
falls through). -/
def findRarest (lo : List Char) (r : Multiset Char) : Option Char :=
  lo.find? (fun c => 0 < r.count c)

mutual

/-- Model of `PangramSolver._search`.  Fuel 0 returns the state unchanged;
every theorem below holds for every fuel value and the entry point supplies
provably sufficient fuel. -/
def search (ctx : Ctx) (cap : Option Nat) : Nat → SearchSt → SearchSt
  | 0, st => st
  | fuel + 1, st =>
      if capReached cap st.solutions then st
      else if st.remaining = 0 then
        { st with solutions := st.solutions ++ [st.currentWords] }
      else if Multiset.card st.remaining ≤ 0 then st
      else findWordsFromRoot ctx cap fuel st
termination_by fuel st => (fuel, 0)

/-- Model of `PangramSolver._find_words_from_root`: pick the rarest letter
with a positive remaining count; when the trie root has a child for it,
decrement it, walk the trie from that child with a fresh
`current_letters = [letter]`, and restore the count afterwards. -/
def findWordsFromRoot (ctx : Ctx) (cap : Option Nat) : Nat → SearchSt → SearchSt
  | 0, st => st
  | fuel + 1, st =>
      match findRarest ctx.letterOrder st.remaining with
      | none => st
      | some l =>
          match lookupChild ctx.root.children l with
          | none => st
          | some child =>
              let t := searchTrie ctx cap fuel child
                { remaining := st.remaining.erase l, currentLetters := [l],
                  currentWords := st.currentWords, solutions := st.solutions }
              { remaining := l ::ₘ t.remaining,
                currentWords := t.currentWords, solutions := t.solutions }
termination_by fuel st => (fuel, 0)

/-- Model of `PangramSolver._search_trie`: first the loop over the (already
rarity-sorted) children, which may `return` early on the cap check; then, if
this node carries a word, append its anagram group to `current_words`,
recurse into `_search` with the current `remaining`, and pop the slot. -/
def searchTrie (ctx : Ctx) (cap : Option Nat) : Nat → TrieNode → TrieSt → TrieSt
  | 0, _, st => st
  | fuel + 1, node, st =>
      if capReached cap st.solutions then st
      else
        let r := trieLoop ctx cap fuel node.children st
        if r.2 then r.1
        else if node.isWord then
          match node.key with
          | none => r.1
          | some k =>
              if k = [] then r.1
              else
                match lookupKey ctx.keyToWords k with
                | none => r.1
                | some ws =>
                    if ws = [] then r.1
                    else
                      let s2 := search ctx cap fuel
                        { remaining := r.1.remaining,
                          currentWords := r.1.currentWords ++ [ws],
                          solutions := r.1.solutions }
                      { remaining := s2.remaining,
                        currentLetters := r.1.currentLetters,
                        currentWords := s2.currentWords.dropLast,
                        solutions := s2.solutions }
        else r.1
termination_by fuel node st => (fuel, 0)

/-- Model of the `for letter, child in node.children.items()` loop inside
`_search_trie`: each child with a positive remaining count is visited with
the count decremented and the letter appended to `current_letters`, both
restored on return; after each visit the cap check may `return` from the
whole function (the Boolean component records that early return, which also
skips the word branch). -/
def trieLoop (ctx : Ctx) (cap : Option Nat) :
    Nat → List (Char × TrieNode) → TrieSt → TrieSt × Bool
  | _, [], st => (st, false)
  | fuel, (l, c) :: rest, st =>
      if 0 < st.remaining.count l then
        let t := searchTrie ctx cap fuel c
          { remaining := st.remaining.erase l,
            currentLetters := st.currentLetters ++ [l],
            currentWords := st.currentWords, solutions := st.solutions }
        let st' : TrieSt :=
          { remaining := l ::ₘ t.remaining,
            currentLetters := t.currentLetters.dropLast,
            currentWords := t.currentWords, solutions := t.solutions }
        if capReached cap st'.solutions then (st', true)
        else trieLoop ctx cap fuel rest st'
      else trieLoop ctx cap fuel rest st
termination_by fuel cs st => (fuel, cs.length + 1)

end

/-- Fuel supplied by the entry point: enough for the deepest call chain,
since every unit of remaining-letter count supports at most three nested
calls (`_search` to `_find_words_from_root` to `_search_trie`). -/
def searchFuel (target : Multiset Char) : Nat := 3 * Multiset.card target + 3

/-- Model of `PangramSolver.solve_pangram` for an explicit target letter
string: build the trie for the filtered pool, return no solutions when the
trie is empty, otherwise run the backtracking search on the target
Counter. -/
def solvePangram (shawWords : List Word) (posOf : Word → List String)
    (targetLetters : List Char) (maxSolutions : Option Nat)
    (excludeWords : List Word) (excludePos : List String) : List (List Slot) :=
  let b := buildTrie shawWords posOf targetLetters excludeWords excludePos
  if b.root.children.isEmpty then []
  else
    let tc : Multiset Char := (targetLetters : Multiset Char)
    (search ⟨b.letterOrder, b.root, b.keyToWords⟩ maxSolutions (searchFuel tc)
      { remaining := tc, currentWords := [], solutions := [] }).solutions

/-! ### Model of `load_words` (lexicon loading) -/

/-- Model of one entry of the readlex JSON mapping: the optional `Shaw`
field and the optional `pos` field (`entry.get('Shaw', '')` yields `""`
for a missing field, modelled by `Option.getD ""`). -/
structure RawEntry where
  shaw : Option String
  pos : Option String
deriving DecidableEq

/-- Model of the parsed readlex JSON: a mapping from grouping keys to entry
lists, in iteration order. -/
abbrev ReadlexData := List (String × List RawEntry)

/-- Insert a word into the `shaw_to_pos` dict with an empty tag set if it is
not present yet (`if shaw not in self.shaw_to_pos`). -/
def posMapInit (m : List (String × List String)) (w : String) :
    List (String × List String) :=
  if m.any (fun q => q.1 = w) then m else m ++ [(w, [])]

/-- Add a tag to a word's tag set (`self.shaw_to_pos[shaw].add(pos)`): set
semantics, so an already present tag is not duplicated. -/
def posMapAdd (m : List (String × List String)) (w p : String) :
    List (String × List String) :=
  m.map (fun q => if q.1 = w then (q.1, if p ∈ q.2 then q.2 else q.2 ++ [p]) else q)

/-- Model of the body of the entry loop in `PangramSolver.load_words`: an
entry whose `Shaw` field is missing or empty is skipped silently, otherwise
the word is appended and its tag recorded. -/
def loadStep (st : List String × List (String × List String)) (e : RawEntry) :
    List String × List (String × List String) :=
  let shaw := e.shaw.getD ""
  let pos := e.pos.getD ""
  if shaw ≠ "" then
    (st.1 ++ [shaw],
      if pos ≠ "" then posMapAdd (posMapInit st.2 shaw) shaw pos
      else posMapInit st.2 shaw)
  else st

/-- Model of the record-processing part of `PangramSolver.load_words`: fold
over all groups and entries of the parsed JSON. -/
def loadWords (data : ReadlexData) : List String × List (String × List String) :=
  data.foldl (fun st p => p.2.foldl loadStep st) ([], [])

/-- Model of `PangramSolver.load_words` including the source level: reading
and parsing the file (`open` / `json.load`) happens outside the function
body and can fail; that outcome is the `Except` input, and a source-level
failure propagates.  The record-processing part (`loadWords`) has no failure
path of its own. -/
def loadLexicon (src : Except String ReadlexData) :
    Except String (List String × List (String × List String)) :=
  match src with
  | .error e => .error e
  | .ok data => .ok (loadWords data)

/-! ### Model of the starter-word subtraction in `main` -/

/-- Model of the starter-letter loop in `main` (lines 417-423 of
`shavian_pangram.py`): walk the starter letters in order; a letter with a
positive remaining count is subtracted, otherwise the program exits with an
error before any search begins. -/
def removeStarterLetters (tc : Multiset Char) : List Char → Except String (Multiset Char)
  | [] => .ok tc
  | l :: rest =>
      if 0 < tc.count l then removeStarterLetters (tc.erase l) rest
      else .error "starter word letter not in target letters"

/-- Model of the starter-word handling of `main`: the target letter string
is counted and the starter letters are removed one-for-one; the surviving
counter is the working multiset passed to `solve_pangram` (the rebuilt
`target_letters` string has exactly these letter counts). -/
def applyStarters (targetLetters starters : List Char) : Except String (Multiset Char) :=
  removeStarterLetters (targetLetters : Multiset Char) starters

/-! ### Reachability of search states

The inductive relation below mirrors, call site by call site and guard by
guard, every recursive call of `search` / `findWordsFromRoot` /
`searchTrie` / `trieLoop` (including the fuel bookkeeping), so that
`Reach ctx cap F0 R0 fr` holds exactly for the frames the search starting
at `search ctx cap F0 ⟨R0, [], []⟩` actually visits. -/

/-- One stack frame of the search: which function is about to run, with its
fuel and arguments. -/
inductive Frame where
  | searchF : Nat → SearchSt → Frame
  | findRootF : Nat → SearchSt → Frame
  | trieF : Nat → TrieNode → TrieSt → Frame
  | loopF : Nat → List (Char × TrieNode) → TrieSt → Frame

/-- The `remaining` multiset carried by a frame. -/
def Frame.remaining : Frame → Multiset Char
  | .searchF _ st => st.remaining
  | .findRootF _ st => st.remaining
  | .trieF _ _ st => st.remaining
  | .loopF _ _ st => st.remaining

/-- Reachability of search frames from the top-level call
`search ctx cap F0 ⟨R0, [], []⟩`, mirroring the recursion of the embedded
functions guard by guard. -/
inductive Reach (ctx : Ctx) (cap : Option Nat) (F0 : Nat) (R0 : Multiset Char) :
    Frame → Prop
  | init : Reach ctx cap F0 R0 (.searchF F0 ⟨R0, [], []⟩)
  | toFindRoot {f : Nat} {st : SearchSt} :
      Reach ctx cap F0 R0 (.searchF (f + 1) st) →
      capReached cap st.solutions = false →
      st.remaining ≠ 0 →
      ¬ Multiset.card st.remaining ≤ 0 →
      Reach ctx cap F0 R0 (.findRootF f st)
  | enterTrie {f : Nat} {st : SearchSt} {l : Char} {child : TrieNode} :
      Reach ctx cap F0 R0 (.findRootF (f + 1) st) →
      findRarest ctx.letterOrder st.remaining = some l →
      lookupChild ctx.root.children l = some child →
      Reach ctx cap F0 R0
        (.trieF f child ⟨st.remaining.erase l, [l], st.currentWords, st.solutions⟩)
  | startLoop {f : Nat} {node : TrieNode} {st : TrieSt} :
      Reach ctx cap F0 R0 (.trieF (f + 1) node st) →
      capReached cap st.solutions = false →
      Reach ctx cap F0 R0 (.loopF f node.children st)
  | loopSkip {f : Nat} {l : Char} {c : TrieNode} {rest : List (Char × TrieNode)}
      {st : TrieSt} :
      Reach ctx cap F0 R0 (.loopF f ((l, c) :: rest) st) →
      ¬ 0 < st.remaining.count l →
      Reach ctx cap F0 R0 (.loopF f rest st)
  | loopEnterChild {f : Nat} {l : Char} {c : TrieNode} {rest : List (Char × TrieNode)}
      {st : TrieSt} :
      Reach ctx cap F0 R0 (.loopF f ((l, c) :: rest) st) →
      0 < st.remaining.count l →
      Reach ctx cap F0 R0
        (.trieF f c ⟨st.remaining.erase l, st.currentLetters ++ [l],
                     st.currentWords, st.solutions⟩)
  | loopNext {f : Nat} {l : Char} {c : TrieNode} {rest : List (Char × TrieNode)}
      {st st' : TrieSt} :
      Reach ctx cap F0 R0 (.loopF f ((l, c) :: rest) st) →
      0 < st.remaining.count l →
      st' = (let t := searchTrie ctx cap f c
               ⟨st.remaining.erase l, st.currentLetters ++ [l],
                st.currentWords, st.solutions⟩
             ⟨l ::ₘ t.remaining, t.currentLetters.dropLast,
              t.currentWords, t.solutions⟩) →
      capReached cap st'.solutions = false →
      Reach ctx cap F0 R0 (.loopF f rest st')
  | acceptWord {f : Nat} {node : TrieNode} {st : TrieSt} {k : Key} {ws : Slot} :
      Reach ctx cap F0 R0 (.trieF (f + 1) node st) →
      capReached cap st.solutions = false →
      (trieLoop ctx cap f node.children st).2 = false →
      node.isWord = true →
      node.key = some k →
      k ≠ [] →
      lookupKey ctx.keyToWords k = some ws →
      ws ≠ [] →
      Reach ctx cap F0 R0
        (.searchF f ⟨(trieLoop ctx cap f node.children st).1.remaining,
                     (trieLoop ctx cap f node.children st).1.currentWords ++ [ws],
                     (trieLoop ctx cap f node.children st).1.solutions⟩)

/-! ### Predicates used by the invariant proofs -/

/-- Well-formedness of a (sub)trie sitting at path `p` below the root: a
stored key equals the full path leading to its node, and every child is
well-formed at the extended path.  This is the structural fact that makes
the letters decremented along a trie walk equal the accepted key. -/
inductive NodeWF : TrieNode → List Char → Prop
  | mk {cs : List (Char × TrieNode)} {w : Bool} {k : Option Key} {p : List Char} :
      (∀ kk, k = some kk → kk = p) →
      (∀ l c, (l, c) ∈ cs → NodeWF c (p ++ [l])) →
      NodeWF (.mk cs w k) p

/-- Letter multiset of a word. -/
def wordMS (w : Word) : Multiset Char := (w : Multiset Char)

/-- Letter multiset of a word-slot, read off its first member (all members
of a slot are anagrams, so the choice of member is immaterial). -/
def msOfSlot (s : Slot) : Multiset Char := ((s.headD []) : Multiset Char)

/-- Total letter multiset of a list of word-slots. -/
def slotsMS (sol : List Slot) : Multiset Char := (sol.map msOfSlot).sum

/-- The slot is one of the anagram groups of `key_to_words`. -/
def SlotFrom (ktw : List (Key × List Word)) (s : Slot) : Prop :=
  ∃ k, (k, s) ∈ ktw

/-- Soundness facts about a `key_to_words` table relative to a word pool:
every group is non-empty and consists of pool words that are letter-for-
letter anagrams of the group's key. -/
def KtwGood (ktw : List (Key × List Word)) (fw : List Word) : Prop :=
  ∀ k ws, (k, ws) ∈ ktw →
    ws ≠ [] ∧ ∀ w ∈ ws, w ∈ fw ∧ (w : Multiset Char) = (k : Multiset Char)

/-! ### Concrete example configurations used by witnesses -/

/-- Part-of-speech map assigning no tags, used by the concrete examples. -/
def exPos : Word → List String := fun _ => []

/-- Tiny lexicon containing just the one-letter word "a". -/
def exWordsA : List Word := [['a']]

/-- Tiny lexicon containing the words "a" and "b". -/
def exWordsAB : List Word := [['a'], ['b']]

/-- Tiny lexicon containing the anagram pair "ab" / "ba". -/
def exWordsAnag : List Word := [['a', 'b'], ['b', 'a']]

/-- Target letter string "ab". -/
def exTargetAB : List Char := ['a', 'b']

/-- Trie build output for the lexicon `exWordsA` and the target "ab"; the
letter `b` occurs in no filtered word, so it is absent from
`letter_order`. -/
def exBuildA : BuildOut := buildTrie exWordsA exPos exTargetAB [] []

/-- Search context corresponding to `exBuildA`. -/
def exCtxA : Ctx := ⟨exBuildA.letterOrder, exBuildA.root, exBuildA.keyToWords⟩

/-- Trie build output for the lexicon `exWordsAB` and the target "ab"; here
every target letter occurs in some filtered word. -/
def exBuildAB : BuildOut := buildTrie exWordsAB exPos exTargetAB [] []

/-- Search context corresponding to `exBuildAB`. -/
def exCtxAB : Ctx := ⟨exBuildAB.letterOrder, exBuildAB.root, exBuildAB.keyToWords⟩

/-- The single trie node below the root of `exCtxA`: the terminal node of
the one-letter word "a". -/
def exNodeA : TrieNode := .mk [] true (some ['a'])

/-! ## Theorems -/

/-- Starter letters that are fully covered by the target multiset are
subtracted one-for-one without an error. -/
theorem removeStarterLetters_of_le (starters : List Char) (tc : Multiset Char)
    (h : (starters : Multiset Char) ≤ tc) :
    removeStarterLetters tc starters = .ok (tc - (starters : Multiset Char)) := by
  induction starters generalizing tc with
  | nil => simp [removeStarterLetters]
  | cons l rest ih =>
      have hmem : l ∈ tc := Multiset.mem_of_le h (by simp)
      have hpos : 0 < tc.count l := Multiset.count_pos.mpr hmem
      have hrest : (rest : Multiset Char) ≤ tc.erase l := by
        rw [Multiset.le_iff_count]
        intro a
        have ha := Multiset.le_iff_count.mp h a
        rw [← Multiset.cons_coe, Multiset.count_cons] at ha
        by_cases hal : a = l
        · subst hal
          rw [Multiset.count_erase_self]
          simp at ha ⊢
          omega
        · rw [Multiset.count_erase_of_ne hal]
          simpa [hal] using ha
      rw [← Multiset.cons_coe, Multiset.sub_cons]
      simpa [removeStarterLetters, hpos] using ih (tc.erase l) hrest

/-- A starter letter that is not available at its point of subtraction makes
the walk fail. -/
theorem removeStarterLetters_of_not_le (starters : List Char) (tc : Multiset Char)
    (h : ¬ (starters : Multiset Char) ≤ tc) :
    removeStarterLetters tc starters =
      .error "starter word letter not in target letters" := by
  induction starters generalizing tc with
  | nil => simp at h
  | cons l rest ih =>
      by_cases hpos : 0 < tc.count l
      · have hrest : ¬ (rest : Multiset Char) ≤ tc.erase l := by
          intro hle
          apply h
          rw [Multiset.le_iff_count]
          intro a
          have ha := Multiset.le_iff_count.mp hle a
          rw [← Multiset.cons_coe, Multiset.count_cons]
          by_cases hal : a = l
          · subst hal
            rw [Multiset.count_erase_self] at ha
            simp at ha ⊢
            omega
          · rw [Multiset.count_erase_of_ne hal] at ha
            simpa [hal] using ha
        simpa [removeStarterLetters, hpos] using ih (tc.erase l) hrest
      · simp [removeStarterLetters, hpos]

/-- Claim C9: when every letter of the starter words is available (with
multiplicity) in the target multiset, the working multiset handed to the
solver is exactly the target multiset minus the starter letters one-for-one
and no error is raised; when some starter letter is unavailable at its point
of subtraction, `main` fails with an error before any search begins. -/
theorem applyStarters_starter_subtraction (target starters : List Char) :
    ((starters : Multiset Char) ≤ (target : Multiset Char) →
      applyStarters target starters =
        .ok ((target : Multiset Char) - (starters : Multiset Char))) ∧
    (¬ (starters : Multiset Char) ≤ (target : Multiset Char) →
      applyStarters target starters =
        .error "starter word letter not in target letters") :=
  ⟨fun h => removeStarterLetters_of_le starters _ h,
   fun h => removeStarterLetters_of_not_le starters _ h⟩

/-- Witness for C9: on the target "ab", the starter "a" is subtracted to the
working multiset "b"; on the target "a", the starter "b" raises the
validation error. -/
theorem applyStarters_starter_subtraction_witness :
    applyStarters ['a', 'b'] ['a'] = .ok ((['b'] : List Char) : Multiset Char) ∧
    applyStarters ['a'] ['b'] =
      .error "starter word letter not in target letters" := by
  constructor
  · have h := (applyStarters_starter_subtraction ['a', 'b'] ['a']).1 (by decide)
    have h2 : ((['a', 'b'] : List Char) : Multiset Char) -
        ((['a'] : List Char) : Multiset Char) =
        ((['b'] : List Char) : Multiset Char) := by decide
    rw [h, h2]
  · exact (applyStarters_starter_subtraction ['a'] ['b']).2 (by decide)

/-- Counterexample to claim C4 as stated: a record whose word field is
missing is skipped silently, it does not make the load fail.  The concrete
data has one group with a word-less entry (only a `pos` field) followed by a
well-formed entry; the load succeeds and returns the one surviving word. -/
theorem loadLexicon_ok_on_missing_word_field :
    loadLexicon (.ok [("key1", [⟨none, some "n"⟩, ⟨some "ab", none⟩])]) =
      .ok (["ab"], [("ab", [])]) := rfl

/-- Amended claim C4: loading fails exactly when the backing source is
unreadable or malformed (that failure propagates unchanged); the
record-processing level never fails, in particular an entry lacking the
word field is silently skipped rather than aborting the load. -/
theorem loadLexicon_fails_only_source_level :
    (∀ e, loadLexicon (.error e) = .error e) ∧
    (∀ data, ∃ out, loadLexicon (.ok data) = .ok out) :=
  ⟨fun _ => rfl, fun data => ⟨loadWords data, rfl⟩⟩

unseal search findWordsFromRoot searchTrie trieLoop sortChildren in
/-- Claim C10: the same word may fill more than one word-slot of a single
solution.  With the lexicon consisting of the single word "a" and the
target multiset "aa", the unique solution uses the slot of "a" twice. -/
theorem solvePangram_can_repeat_word :
    solvePangram exWordsA exPos ['a', 'a'] none [] [] = [[[['a']], [['a']]]] ∧
    ([[['a']], [['a']]] : List Slot).count [['a']] = 2 := by
  constructor
  · rfl
  · decide

/-! ### Counter and rarity-order lemmas (towards C7 and C6) -/

/-- Keys of the counter after one `insertCount`: unchanged if the letter was
present, otherwise the letter is appended. -/
theorem insertCount_keys (cnt : List (Char × Nat)) (c : Char) :
    (insertCount cnt c).map Prod.fst =
      if c ∈ cnt.map Prod.fst then cnt.map Prod.fst
      else cnt.map Prod.fst ++ [c] := by
  induction cnt with
  | nil => simp [insertCount]
  | cons p rest ih =>
      obtain ⟨d, n⟩ := p
      by_cases hc : c = d
      · subst hc
        simp [insertCount]
      · have hstep : insertCount ((d, n) :: rest) c = (d, n) :: insertCount rest c := by
          simp [insertCount, hc]
        rw [hstep]
        simp only [List.map_cons]
        rw [ih]
        by_cases hm : c ∈ rest.map Prod.fst
        · simp [hm, hc]
        · simp [hm, hc]

/-- Value of a letter in the counter after one `insertCount`. -/
theorem insertCount_cntVal (cnt : List (Char × Nat)) (c d : Char) :
    cntVal (insertCount cnt c) d = cntVal cnt d + if d = c then 1 else 0 := by
  induction cnt with
  | nil =>
      by_cases h : d = c <;> simp [insertCount, cntVal, h]
  | cons p rest ih =>
      obtain ⟨e, n⟩ := p
      by_cases hc : c = e
      · subst hc
        by_cases hd : d = c <;> simp [insertCount, cntVal, hd]
      · have hstep : insertCount ((e, n) :: rest) c = (e, n) :: insertCount rest c := by
          simp [insertCount, hc]
        rw [hstep]
        by_cases hd : d = e
        · subst hd
          have : d ≠ c := fun h => hc h.symm
          simp [cntVal, this]
        · simp [cntVal, hd, ih]

/-- Keys of the counter stay duplicate-free under `insertCount`. -/
theorem insertCount_nodupKeys (cnt : List (Char × Nat)) (c : Char)
    (h : (cnt.map Prod.fst).Nodup) : ((insertCount cnt c).map Prod.fst).Nodup := by
  rw [insertCount_keys]
  by_cases hm : c ∈ cnt.map Prod.fst
  · simpa [hm] using h
  · simp only [hm, if_false]
    rw [List.nodup_append]
    refine ⟨h, List.nodup_singleton c, ?_⟩
    simpa using hm

/-- Keys of the counter after folding a letter list: exactly the previous
keys plus the letters of the list. -/
theorem foldl_insertCount_keys (cs : List Char) (cnt : List (Char × Nat)) (d : Char) :
    d ∈ (cs.foldl insertCount cnt).map Prod.fst ↔ d ∈ cnt.map Prod.fst ∨ d ∈ cs := by
  induction cs generalizing cnt with
  | nil => simp
  | cons c rest ih =>
      simp only [List.foldl_cons]
      rw [ih, insertCount_keys]
      by_cases hm : c ∈ cnt.map Prod.fst
      · by_cases hdc : d = c
        · subst hdc
          simp [hm]
        · simp [hm, hdc]
      · simp [hm, or_assoc]

/-- Value of a letter in the counter after folding a letter list: the
previous value plus the letter's multiplicity in the list. -/
theorem foldl_insertCount_cntVal (cs : List Char) (cnt : List (Char × Nat)) (d : Char) :
    cntVal (cs.foldl insertCount cnt) d = cntVal cnt d + cs.count d := by
  induction cs generalizing cnt with
  | nil => simp
  | cons c rest ih =>
      simp only [List.foldl_cons]
      rw [ih, insertCount_cntVal, List.count_cons]
      by_cases h : d = c
      · subst h
        simp
        omega
      · have h2 : ¬ c = d := fun he => h he.symm
        simp [h, h2]

/-- Counter keys stay duplicate-free under folding a letter list. -/
theorem foldl_insertCount_nodup (cs : List Char) (cnt : List (Char × Nat))
    (h : (cnt.map Prod.fst).Nodup) : ((cs.foldl insertCount cnt).map Prod.fst).Nodup := by
  induction cs generalizing cnt with
  | nil => exact h
  | cons c rest ih => exact ih _ (insertCount_nodupKeys _ _ h)

/-- Accumulating `letter_counts` word by word equals accumulating it over
the concatenation of the words. -/
theorem foldl_insertCount_flatten (ws : List Word) (init : List (Char × Nat)) :
    ws.foldl (fun acc w => w.foldl insertCount acc) init =
      (ws.flatten).foldl insertCount init := by
  induction ws generalizing init with
  | nil => rfl
  | cons w rest ih => simp [List.foldl_append, ih]

/-- A pair present in a duplicate-free counter carries the `cntVal` value of
its letter. -/
theorem mem_cntVal {cnt : List (Char × Nat)} (h : (cnt.map Prod.fst).Nodup)
    {c : Char} {n : Nat} (hm : (c, n) ∈ cnt) : n = cntVal cnt c := by
  induction cnt with
  | nil => cases hm
  | cons p rest ih =>
      obtain ⟨e, m⟩ := p
      rcases List.mem_cons.mp hm with h1 | h1
      · cases h1
        simp [cntVal]
      · have hne : c ≠ e := by
          intro he
          subst he
          have hmem : c ∈ rest.map Prod.fst := by
            exact List.mem_map_of_mem Prod.fst h1
          simp only [List.map_cons, List.nodup_cons] at h
          exact h.1 hmem

        have hrest : (rest.map Prod.fst).Nodup := by
          simp only [List.map_cons, List.nodup_cons] at h
          exact h.2
        simp [cntVal, hne]
        exact ih hrest h1

/-- The keys of `countLetters` are exactly the letters occurring in the word
pool. -/
theorem mem_countLetters_keys (ws : List Word) (c : Char) :
    c ∈ (countLetters ws).map Prod.fst ↔ ∃ w ∈ ws, c ∈ w := by
  rw [show countLetters ws = ws.flatten.foldl insertCount [] from
    foldl_insertCount_flatten ws []]
  rw [foldl_insertCount_keys]
  simp [List.mem_flatten]

/-- The keys of `countLetters` are duplicate-free. -/
theorem countLetters_nodup (ws : List Word) :
    ((countLetters ws).map Prod.fst).Nodup := by
  rw [show countLetters ws = ws.flatten.foldl insertCount [] from
    foldl_insertCount_flatten ws []]
  exact foldl_insertCount_nodup _ _ (by simp)

/-- A pair of `countLetters` carries the letter's total occurrence count in
the pool, counted with multiplicity. -/
theorem countLetters_val {ws : List Word} {c : Char} {n : Nat}
    (hm : (c, n) ∈ countLetters ws) : n = (ws.flatten).count c := by
  have h1 := mem_cntVal (countLetters_nodup ws) hm
  rw [show countLetters ws = ws.flatten.foldl insertCount [] from
    foldl_insertCount_flatten ws []] at h1
  rw [foldl_insertCount_cntVal] at h1
  simpa [cntVal] using h1

/-- Membership in `letter_order`: exactly the letters occurring in the
pool. -/
theorem mem_letterOrderOf (ws : List Word) (c : Char) :
    c ∈ letterOrderOf ws ↔ ∃ w ∈ ws, c ∈ w := by
  unfold letterOrderOf mostCommon
  rw [List.mem_reverse]
  rw [← mem_countLetters_keys ws c]
  constructor
  · intro h
    rcases List.mem_map.mp h with ⟨p, hp, hpc⟩
    exact List.mem_map.mpr ⟨p, (List.mem_insertionSort _).mp hp, hpc⟩
  · intro h
    rcases List.mem_map.mp h with ⟨p, hp, hpc⟩
    exact List.mem_map.mpr ⟨p, (List.mem_insertionSort _).mpr hp, hpc⟩

/-- The letters of `letter_order` are duplicate-free. -/
theorem letterOrderOf_nodup (ws : List Word) : (letterOrderOf ws).Nodup := by
  unfold letterOrderOf mostCommon
  rw [List.nodup_reverse]
  have hperm : List.Perm
      ((List.insertionSort (fun a b : Char × Nat => b.2 ≤ a.2) (countLetters ws)).map Prod.fst)
      ((countLetters ws).map Prod.fst) :=
    (List.perm_insertionSort _ _).map Prod.fst
  exact hperm.nodup_iff.mpr (countLetters_nodup ws)

/-- The letters of `letter_order` are in ascending order of total occurrence
count across the pool. -/
theorem letterOrderOf_sorted (ws : List Word) :
    (letterOrderOf ws).Pairwise
      (fun a b => (ws.flatten).count a ≤ (ws.flatten).count b) := by
  haveI : IsTotal (Char × Nat) (fun a b => b.2 ≤ a.2) :=
    ⟨fun a b => Nat.le_total b.2 a.2⟩
  haveI : IsTrans (Char × Nat) (fun a b => b.2 ≤ a.2) :=
    ⟨fun _ _ _ h1 h2 => Nat.le_trans h2 h1⟩
  have hs : (List.insertionSort (fun a b : Char × Nat => b.2 ≤ a.2) (countLetters ws)).Pairwise
      (fun a b : Char × Nat => b.2 ≤ a.2) := List.sorted_insertionSort _ _
  have hs2 : (List.insertionSort (fun a b : Char × Nat => b.2 ≤ a.2) (countLetters ws)).Pairwise
      (fun a b : Char × Nat => (ws.flatten).count b.1 ≤ (ws.flatten).count a.1) := by
    refine List.Pairwise.imp_of_mem ?_ hs
    intro a b ha hb hle
    have ha' : a ∈ countLetters ws := (List.mem_insertionSort _).mp ha
    have hb' : b ∈ countLetters ws := (List.mem_insertionSort _).mp hb
    have hva : a.2 = (ws.flatten).count a.1 := countLetters_val (by simpa using ha')
    have hvb : b.2 = (ws.flatten).count b.1 := countLetters_val (by simpa using hb')
    rw [← hva, ← hvb]
    exact hle
  unfold letterOrderOf mostCommon
  rw [List.pairwise_reverse]
  rw [List.pairwise_map]
  exact hs2

/-- Claim C7: after `build_trie`, `letter_order` contains every letter that
occurs in at least one filtered word exactly once and no other letter,
ordered by ascending total occurrence count (with multiplicity) across the
filtered words. -/
theorem letterOrder_rarity_properties (shawWords : List Word)
    (posOf : Word → List String) (targetLetters : List Char)
    (excludeWords : List Word) (excludePos : List String) :
    (buildTrie shawWords posOf targetLetters excludeWords excludePos).letterOrder.Nodup ∧
    (∀ c, c ∈ (buildTrie shawWords posOf targetLetters excludeWords excludePos).letterOrder ↔
      ∃ w ∈ filteredWords shawWords posOf targetLetters excludeWords excludePos, c ∈ w) ∧
    (buildTrie shawWords posOf targetLetters excludeWords excludePos).letterOrder.Pairwise
      (fun a b =>
        ((filteredWords shawWords posOf targetLetters excludeWords excludePos).flatten).count a ≤
        ((filteredWords shawWords posOf targetLetters excludeWords excludePos).flatten).count b) :=
  ⟨letterOrderOf_nodup _, fun c => mem_letterOrderOf _ c, letterOrderOf_sorted _⟩

/-! ### Anagram key lemmas (towards C6) -/

/-- Two sorted lists that are permutations of each other are equal, provided
the order is antisymmetric on the elements involved (the rarity order is
only antisymmetric on letters actually present in `letter_order`, so the
usual global-antisymmetry lemma does not apply). -/
theorem eq_of_perm_of_sorted_of_antisymmOn {r : Char → Char → Prop} :
    ∀ {l1 l2 : List Char}, List.Perm l1 l2 → l1.Pairwise r → l2.Pairwise r →
      (∀ a ∈ l1, ∀ b ∈ l2, r a b → r b a → a = b) → l1 = l2 := by
  intro l1
  induction l1 with
  | nil =>
      intro l2 hp _ _ _
      exact List.Perm.nil_eq hp
  | cons a t1 ih =>
      intro l2 hp hs1 hs2 anti
      cases l2 with
      | nil => exact absurd hp.symm (by simp)
      | cons b t2 =>
          have hab : a = b := by
            by_cases h : a = b
            · exact h
            · have ha2 : a ∈ b :: t2 := hp.mem_iff.mp (by simp)
              have hb1 : b ∈ a :: t1 := hp.mem_iff.mpr (by simp)
              have hr1 : r a b := by
                rcases List.mem_cons.mp hb1 with h1 | h1
                · exact absurd h1.symm h
                · exact (List.pairwise_cons.mp hs1).1 b h1
              have hr2 : r b a := by
                rcases List.mem_cons.mp ha2 with h1 | h1
                · exact absurd h1 h
                · exact (List.pairwise_cons.mp hs2).1 a h1
              exact anti a (by simp) b (by simp) hr1 hr2
          subst hab
          have hp' : List.Perm t1 t2 := hp.cons_inv
          have ht : t1 = t2 := by
            refine ih hp' (List.pairwise_cons.mp hs1).2 (List.pairwise_cons.mp hs2).2 ?_
            intro x hx y hy
            exact anti x (by simp [hx]) y (by simp [hy])
          rw [ht]

/-- A word's rarity-sorted key is a permutation of the word. -/
theorem sortKey_perm (lo : List Char) (w : Word) : List.Perm (sortKey lo w) w :=
  List.perm_insertionSort _ _

/-- A word's rarity-sorted key is sorted with respect to the rarity
order. -/
theorem sortKey_sorted (lo : List Char) (w : Word) :
    (sortKey lo w).Pairwise (rarityLe lo) := by
  haveI : IsTotal Char (rarityLe lo) := ⟨fun a b => Nat.le_total _ _⟩
  haveI : IsTrans Char (rarityLe lo) := ⟨fun _ _ _ h1 h2 => Nat.le_trans h1 h2⟩
  exact List.sorted_insertionSort _ _

/-- Claim C6: two words of the filtered pool get the same rarity-sorted key
in `build_trie` exactly when they have the same letter multiset. -/
theorem sortKey_eq_iff_anagram (shawWords : List Word) (posOf : Word → List String)
    (targetLetters : List Char) (excludeWords : List Word) (excludePos : List String)
    {w1 w2 : Word}
    (h1 : w1 ∈ filteredWords shawWords posOf targetLetters excludeWords excludePos)
    (h2 : w2 ∈ filteredWords shawWords posOf targetLetters excludeWords excludePos) :
    sortKey (buildTrie shawWords posOf targetLetters excludeWords excludePos).letterOrder w1 =
      sortKey (buildTrie shawWords posOf targetLetters excludeWords excludePos).letterOrder w2 ↔
    (w1 : Multiset Char) = (w2 : Multiset Char) := by
  set fw := filteredWords shawWords posOf targetLetters excludeWords excludePos with hfw
  have hlo : (buildTrie shawWords posOf targetLetters excludeWords excludePos).letterOrder =
      letterOrderOf fw := rfl
  rw [hlo]
  constructor
  · intro h
    rw [Multiset.coe_eq_coe]
    exact ((sortKey_perm _ w1).symm.trans (h ▸ sortKey_perm _ w2 : List.Perm (sortKey (letterOrderOf fw) w1) w2))
  · intro h
    refine eq_of_perm_of_sorted_of_antisymmOn ?_ (sortKey_sorted _ _) (sortKey_sorted _ _) ?_
    · exact ((sortKey_perm _ w1).trans (Multiset.coe_eq_coe.mp h)).trans (sortKey_perm _ w2).symm
    · intro a ha b hb hr1 hr2
      have ha1 : a ∈ w1 := (sortKey_perm _ w1).mem_iff.mp ha
      have hb2 : b ∈ w2 := (sortKey_perm _ w2).mem_iff.mp hb
      have haLo : a ∈ letterOrderOf fw := (mem_letterOrderOf fw a).mpr ⟨w1, h1, ha1⟩
      have hbLo : b ∈ letterOrderOf fw := (mem_letterOrderOf fw b).mpr ⟨w2, h2, hb2⟩
      exact (List.indexOf_inj haLo hbLo).mp (Nat.le_antisymm hr1 hr2)

/-- Witness for C6: "ab" and "ba" both sit in the filtered pool of the
anagram example, and their keys agree because their letter multisets do. -/
theorem sortKey_eq_iff_anagram_witness :
    ['a', 'b'] ∈ filteredWords exWordsAnag exPos exTargetAB [] [] ∧
    sortKey (buildTrie exWordsAnag exPos exTargetAB [] []).letterOrder ['a', 'b'] =
      sortKey (buildTrie exWordsAnag exPos exTargetAB [] []).letterOrder ['b', 'a'] := by
  refine ⟨by decide, ?_⟩
  exact (sortKey_eq_iff_anagram exWordsAnag exPos exTargetAB [] []
    (by decide) (by decide)).mpr (by decide)

/-! ### Restoration of the mutable search state (towards C8) -/

/-- The letter produced by `findRarest` has a positive remaining count. -/
theorem findRarest_pos {lo : List Char} {r : Multiset Char} {l : Char}
    (h : findRarest lo r = some l) : 0 < r.count l := by
  have := List.find?_some h
  simpa using this

/-- The letter produced by `findRarest` lies in `letter_order`. -/
theorem findRarest_mem {lo : List Char} {r : Multiset Char} {l : Char}
    (h : findRarest lo r = some l) : l ∈ lo :=
  List.mem_of_find?_eq_some h

/-- Restoration property of the child loop of `_search_trie`, assuming it
for `searchTrie` at the same fuel: after the loop, `remaining`,
`current_letters` and `current_words` hold their entry values. -/
theorem trieLoop_restores (ctx : Ctx) (cap : Option Nat) (f : Nat)
    (H : ∀ node st, (searchTrie ctx cap f node st).remaining = st.remaining ∧
      (searchTrie ctx cap f node st).currentLetters = st.currentLetters ∧
      (searchTrie ctx cap f node st).currentWords = st.currentWords) :
    ∀ (cs : List (Char × TrieNode)) (st : TrieSt),
      (trieLoop ctx cap f cs st).1.remaining = st.remaining ∧
      (trieLoop ctx cap f cs st).1.currentLetters = st.currentLetters ∧
      (trieLoop ctx cap f cs st).1.currentWords = st.currentWords := by
  intro cs
  induction cs with
  | nil => intro st; simp [trieLoop]
  | cons p rest ih =>
      intro st
      obtain ⟨l, c⟩ := p
      by_cases hl : 0 < st.remaining.count l
      · obtain ⟨hr, hcl, hcw⟩ := H c ⟨st.remaining.erase l, st.currentLetters ++ [l],
          st.currentWords, st.solutions⟩
        have hmem : l ∈ st.remaining := Multiset.count_pos.mp hl
        simp only [trieLoop, hl, if_true]
        have hstate :
            (⟨l ::ₘ (searchTrie ctx cap f c ⟨st.remaining.erase l,
                st.currentLetters ++ [l], st.currentWords, st.solutions⟩).remaining,
              (searchTrie ctx cap f c ⟨st.remaining.erase l, st.currentLetters ++ [l],
                st.currentWords, st.solutions⟩).currentLetters.dropLast,
              (searchTrie ctx cap f c ⟨st.remaining.erase l, st.currentLetters ++ [l],
                st.currentWords, st.solutions⟩).currentWords,
              (searchTrie ctx cap f c ⟨st.remaining.erase l, st.currentLetters ++ [l],
                st.currentWords, st.solutions⟩).solutions⟩ : TrieSt) =
            ⟨st.remaining, st.currentLetters, st.currentWords,
              (searchTrie ctx cap f c ⟨st.remaining.erase l, st.currentLetters ++ [l],
                st.currentWords, st.solutions⟩).solutions⟩ := by
          rw [hr, hcl, hcw]
          simp [Multiset.cons_erase hmem]
        simp only [hstate]
        by_cases hcap : capReached cap
            (searchTrie ctx cap f c ⟨st.remaining.erase l, st.currentLetters ++ [l],
              st.currentWords, st.solutions⟩).solutions = true
        · simp [hcap]
        · simp only [hcap, if_false]
          simpa using ih ⟨st.remaining, st.currentLetters, st.currentWords,
            (searchTrie ctx cap f c ⟨st.remaining.erase l, st.currentLetters ++ [l],
              st.currentWords, st.solutions⟩).solutions⟩
      · simp only [trieLoop, hl, if_false]
        exact ih st

/-- Restoration of the mutable search state for all three recursive
functions, by induction on the fuel. -/
theorem restores (ctx : Ctx) (cap : Option Nat) : ∀ f : Nat,
    (∀ st : SearchSt, (search ctx cap f st).remaining = st.remaining ∧
      (search ctx cap f st).currentWords = st.currentWords) ∧
    (∀ st : SearchSt, (findWordsFromRoot ctx cap f st).remaining = st.remaining ∧
      (findWordsFromRoot ctx cap f st).currentWords = st.currentWords) ∧
    (∀ (node : TrieNode) (st : TrieSt),
      (searchTrie ctx cap f node st).remaining = st.remaining ∧
      (searchTrie ctx cap f node st).currentLetters = st.currentLetters ∧
      (searchTrie ctx cap f node st).currentWords = st.currentWords) := by
  intro f
  induction f with
  | zero =>
      refine ⟨fun st => ?_, fun st => ?_, fun node st => ?_⟩ <;>
        simp [search, findWordsFromRoot, searchTrie]
  | succ f ih =>
      obtain ⟨ihS, ihF, ihT⟩ := ih
      refine ⟨?_, ?_, ?_⟩
      · intro st
        by_cases h1 : capReached cap st.solutions = true
        · simp [search, h1]
        · by_cases h2 : st.remaining = 0
          · simp [search, h1, h2]
          · by_cases h3 : Multiset.card st.remaining ≤ 0
            · simp [search, h1, h2, h3]
            · simpa [search, h1, h2, h3] using ihF st
      · intro st
        cases hf : findRarest ctx.letterOrder st.remaining with
        | none => simp [findWordsFromRoot, hf]
        | some l =>
            cases hc : lookupChild ctx.root.children l with
            | none => simp [findWordsFromRoot, hf, hc]
            | some child =>
                have hmem : l ∈ st.remaining := Multiset.count_pos.mp (findRarest_pos hf)
                obtain ⟨hr, hcl2, hcw⟩ := ihT child
                  ⟨st.remaining.erase l, [l], st.currentWords, st.solutions⟩
                simp [findWordsFromRoot, hf, hc, hr, hcw, Multiset.cons_erase hmem]
      · intro node st
        by_cases h1 : capReached cap st.solutions = true
        · simp [searchTrie, h1]
        · obtain ⟨p1, p2, p3⟩ := trieLoop_restores ctx cap f ihT node.children st
          by_cases h2 : (trieLoop ctx cap f node.children st).2 = true
          · simp [searchTrie, h1, h2, p1, p2, p3]
          · cases hw : node.isWord with
            | false => simp [searchTrie, h1, h2, hw, p1, p2, p3]
            | true =>
                cases hk : node.key with
                | none => simp [searchTrie, h1, h2, hw, hk, p1, p2, p3]
                | some k =>
                    by_cases hke : k = []
                    · simp [searchTrie, h1, h2, hw, hk, hke, p1, p2, p3]
                    · cases hlk : lookupKey ctx.keyToWords k with
                      | none => simp [searchTrie, h1, h2, hw, hk, hke, hlk, p1, p2, p3]
                      | some ws =>
                          by_cases hwse : ws = []
                          · simp [searchTrie, h1, h2, hw, hk, hke, hlk, hwse, p1, p2, p3]
                          · obtain ⟨q1, q2⟩ := ihS
                              ⟨st.remaining, st.currentWords ++ [ws],
                               (trieLoop ctx cap f node.children st).1.solutions⟩
                            simp [searchTrie, h1, h2, hw, hk, hke, hlk, hwse,
                              p1, p2, p3, q1, q2]

/-- Claim C8: every recursive step restores the mutable state before
returning: `_search_trie` leaves `remaining`, `current_letters` and
`current_words` at their entry values, `_find_words_from_root` and
`_search` leave `remaining` and `current_words` at their entry values (so
after the top-level `_search` returns, `remaining` equals the original
target multiset).  In this embedding the counter lives in natural numbers;
the restoration equality is provable precisely because every decrement in
the source is guarded by a positivity test, so no count ever drops below
zero. -/
theorem search_restores_state (ctx : Ctx) (cap : Option Nat) (f : Nat)
    (node : TrieNode) (st : TrieSt) (ss : SearchSt) :
    ((searchTrie ctx cap f node st).remaining = st.remaining ∧
      (searchTrie ctx cap f node st).currentLetters = st.currentLetters ∧
      (searchTrie ctx cap f node st).currentWords = st.currentWords) ∧
    ((findWordsFromRoot ctx cap f ss).remaining = ss.remaining ∧
      (findWordsFromRoot ctx cap f ss).currentWords = ss.currentWords) ∧
    ((search ctx cap f ss).remaining = ss.remaining ∧
      (search ctx cap f ss).currentWords = ss.currentWords) :=
  ⟨(restores ctx cap f).2.2 node st, (restores ctx cap f).2.1 ss,
    (restores ctx cap f).1 ss⟩

/-! ### The solutions list is append-only (towards C3, C1, C5) -/

/-- Normal form of the child loop: the entry state with some block of new
solutions appended, assuming the same normal form for `searchTrie` at the
same fuel. -/
theorem trieLoop_extends (ctx : Ctx) (cap : Option Nat) (f : Nat)
    (H : ∀ node st, ∃ d, searchTrie ctx cap f node st =
      ⟨st.remaining, st.currentLetters, st.currentWords, st.solutions ++ d⟩) :
    ∀ (cs : List (Char × TrieNode)) (st : TrieSt), ∃ d b,
      trieLoop ctx cap f cs st =
        (⟨st.remaining, st.currentLetters, st.currentWords, st.solutions ++ d⟩, b) := by
  intro cs
  induction cs with
  | nil =>
      intro st
      exact ⟨[], false, by simp [trieLoop]⟩
  | cons p rest ih =>
      intro st
      obtain ⟨l, c⟩ := p
      by_cases hl : 0 < st.remaining.count l
      · obtain ⟨d1, hd1⟩ := H c ⟨st.remaining.erase l, st.currentLetters ++ [l],
          st.currentWords, st.solutions⟩
        have hmem : l ∈ st.remaining := Multiset.count_pos.mp hl
        simp only [trieLoop, hl, if_true, hd1]
        simp only [Multiset.cons_erase hmem]
        by_cases hcap : capReached cap (st.solutions ++ d1) = true
        · refine ⟨d1, true, ?_⟩
          simp [hcap]
        · obtain ⟨d2, b2, hd2⟩ := ih ⟨st.remaining, st.currentLetters,
            st.currentWords, st.solutions ++ d1⟩
          refine ⟨d1 ++ d2, b2, ?_⟩
          simp only [hcap]
          simp at hd2 ⊢
          simpa [List.append_assoc] using hd2
      · simp only [trieLoop, hl, if_false]
        exact ih st

/-- Normal form of the three search functions: each returns the entry state
with a block of new solutions appended. -/
theorem sols_extend (ctx : Ctx) (cap : Option Nat) : ∀ f : Nat,
    (∀ st : SearchSt, ∃ d, search ctx cap f st =
      ⟨st.remaining, st.currentWords, st.solutions ++ d⟩) ∧
    (∀ st : SearchSt, ∃ d, findWordsFromRoot ctx cap f st =
      ⟨st.remaining, st.currentWords, st.solutions ++ d⟩) ∧
    (∀ (node : TrieNode) (st : TrieSt), ∃ d, searchTrie ctx cap f node st =
      ⟨st.remaining, st.currentLetters, st.currentWords, st.solutions ++ d⟩) := by
  intro f
  induction f with
  | zero =>
      refine ⟨fun st => ⟨[], ?_⟩, fun st => ⟨[], ?_⟩, fun node st => ⟨[], ?_⟩⟩ <;>
        simp [search, findWordsFromRoot, searchTrie]
  | succ f ih =>
      obtain ⟨ihS, ihF, ihT⟩ := ih
      refine ⟨?_, ?_, ?_⟩
      · intro st
        by_cases h1 : capReached cap st.solutions = true
        · exact ⟨[], by simp [search, h1]⟩
        · by_cases h2 : st.remaining = 0
          · exact ⟨[st.currentWords], by simp [search, h1, h2]⟩
          · by_cases h3 : Multiset.card st.remaining ≤ 0
            · exact ⟨[], by simp [search, h1, h2, h3]⟩
            · obtain ⟨d, hd⟩ := ihF st
              exact ⟨d, by simp [search, h1, h2, h3, hd]⟩
      · intro st
        cases hf : findRarest ctx.letterOrder st.remaining with
        | none => exact ⟨[], by simp [findWordsFromRoot, hf]⟩
        | some l =>
            cases hc : lookupChild ctx.root.children l with
            | none => exact ⟨[], by simp [findWordsFromRoot, hf, hc]⟩
            | some child =>
                have hmem : l ∈ st.remaining := Multiset.count_pos.mp (findRarest_pos hf)
                obtain ⟨d, hd⟩ := ihT child
                  ⟨st.remaining.erase l, [l], st.currentWords, st.solutions⟩
                refine ⟨d, ?_⟩
                simp [findWordsFromRoot, hf, hc, hd, Multiset.cons_erase hmem]
      · intro node st
        by_cases h1 : capReached cap st.solutions = true
        · exact ⟨[], by simp [searchTrie, h1]⟩
        · obtain ⟨dL, bL, hL⟩ := trieLoop_extends ctx cap f ihT node.children st
          by_cases h2 : bL = true
          · refine ⟨dL, ?_⟩
            simp [searchTrie, h1, hL, h2]
          · have h2' : bL = false := by
              cases bL
              · rfl
              · exact absurd rfl h2
            subst h2'
            cases hw : node.isWord with
            | false => exact ⟨dL, by simp [searchTrie, h1, hL, hw]⟩
            | true =>
                cases hk : node.key with
                | none => exact ⟨dL, by simp [searchTrie, h1, hL, hw, hk]⟩
                | some k =>
                    by_cases hke : k = []
                    · exact ⟨dL, by simp [searchTrie, h1, hL, hw, hk, hke]⟩
                    · cases hlk : lookupKey ctx.keyToWords k with
                      | none => exact ⟨dL, by simp [searchTrie, h1, hL, hw, hk, hke, hlk]⟩
                      | some ws =>
                          by_cases hwse : ws = []
                          · exact ⟨dL, by simp [searchTrie, h1, hL, hw, hk, hke, hlk, hwse]⟩
                          · obtain ⟨d2, hd2⟩ := ihS
                              ⟨st.remaining, st.currentWords ++ [ws], st.solutions ++ dL⟩
                            refine ⟨dL ++ d2, ?_⟩
                            simp [searchTrie, h1, hL, hw, hk, hke, hlk, hwse, hd2]

/-- The uncapped child loop never takes the early return (the cap test is
identically false when `max_solutions` is `None`). -/
theorem trieLoop_none_no_early (ctx : Ctx) (f : Nat) :
    ∀ (cs : List (Char × TrieNode)) (st : TrieSt),
      (trieLoop ctx none f cs st).2 = false := by
  intro cs
  induction cs with
  | nil => intro st; simp [trieLoop]
  | cons p rest ih =>
      intro st
      obtain ⟨l, c⟩ := p
      by_cases hl : 0 < st.remaining.count l
      · simp only [trieLoop, hl, if_true]
        have : capReached none (searchTrie ctx none f c ⟨st.remaining.erase l,
            st.currentLetters ++ [l], st.currentWords, st.solutions⟩).solutions = false := rfl
        simp [this]
        exact ih _
      · simp only [trieLoop, hl, if_false]
        exact ih st

/-! ### A capped run yields a prefix of the uncapped run (towards C3) -/

/-- With `max_solutions = None` the cap test is identically false. -/
theorem capReached_none (sols : List (List Slot)) : capReached none sols = false := rfl

/-- Unfolding of the cap test for an explicit cap. -/
theorem capReached_some (K : Nat) (sols : List (List Slot)) :
    capReached (some K) sols = true ↔ K ≤ sols.length := by
  simp [capReached]

/-- Cap-versus-uncapped relation for the child loop, assuming it for
`searchTrie` at the same fuel: the capped solutions are the `K`-prefix of
the uncapped ones; an early return means the cap is exactly met; no early
return means the two runs coincide. -/
theorem trieLoop_cap_take (ctx : Ctx) (K : Nat) (f : Nat)
    (Ht : ∀ (node : TrieNode) (st : TrieSt), st.solutions.length ≤ K →
      (searchTrie ctx (some K) f node st).solutions =
        ((searchTrie ctx none f node st).solutions).take K) :
    ∀ (cs : List (Char × TrieNode)) (st : TrieSt), st.solutions.length ≤ K →
      ((trieLoop ctx (some K) f cs st).1.solutions =
        ((trieLoop ctx none f cs st).1.solutions).take K) ∧
      ((trieLoop ctx (some K) f cs st).2 = true →
        (trieLoop ctx (some K) f cs st).1.solutions.length = K) ∧
      ((trieLoop ctx (some K) f cs st).2 = false →
        (trieLoop ctx (some K) f cs st).1.solutions =
          (trieLoop ctx none f cs st).1.solutions) := by
  intro cs
  induction cs with
  | nil =>
      intro st h
      refine ⟨?_, ?_, ?_⟩
      · simpa [trieLoop] using (List.take_of_length_le h).symm
      · intro hx
        simp [trieLoop] at hx
      · intro hx
        simp [trieLoop]
  | cons p rest ih =>
      intro st h
      obtain ⟨l, c⟩ := p
      by_cases hl : 0 < st.remaining.count l
      · have hmem : l ∈ st.remaining := Multiset.count_pos.mp hl
        obtain ⟨dC, hC⟩ := (sols_extend ctx (some K) f).2.2 c
          ⟨st.remaining.erase l, st.currentLetters ++ [l], st.currentWords, st.solutions⟩
        obtain ⟨dU, hU⟩ := (sols_extend ctx none f).2.2 c
          ⟨st.remaining.erase l, st.currentLetters ++ [l], st.currentWords, st.solutions⟩
        dsimp only at hC hU
        have htake : st.solutions ++ dC = (st.solutions ++ dU).take K := by
          have := Ht c ⟨st.remaining.erase l, st.currentLetters ++ [l],
            st.currentWords, st.solutions⟩ (by simpa using h)
          rw [hC, hU] at this
          simpa using this
        have hlenC : (st.solutions ++ dC).length ≤ K := by
          rw [htake]
          simp [List.length_take]
        simp only [trieLoop, hl, if_true, hC, hU]
        simp only [Multiset.cons_erase hmem, List.dropLast_concat]
        by_cases hcap : capReached (some K) (st.solutions ++ dC) = true
        · have hlenK : (st.solutions ++ dC).length = K :=
            Nat.le_antisymm hlenC ((capReached_some K _).mp hcap)
          have hKU : K ≤ (st.solutions ++ dU).length := by
            have : ((st.solutions ++ dU).take K).length = K := by
              rw [← htake, hlenK]
            simpa [List.length_take] using this
          obtain ⟨d2, b2, h2⟩ := trieLoop_extends ctx none f
            (fun node st => (sols_extend ctx none f).2.2 node st) rest
            ⟨st.remaining, st.currentLetters, st.currentWords, st.solutions ++ dU⟩
          have hcapu : capReached none (st.solutions ++ dU) = false := rfl
          refine ⟨?_, ?_, ?_⟩
          · simp only [hcap, hcapu, if_true, Bool.false_eq_true, if_false, h2,
              eq_self_iff_true]
            rw [List.take_append_of_le_length hKU, ← htake]
          · intro _
            simp only [hcap, eq_self_iff_true, if_true]
            exact hlenK
          · intro hfal
            simp only [hcap, eq_self_iff_true, if_true] at hfal
            exact absurd hfal (by simp)
        · have hlt : (st.solutions ++ dC).length < K := by
            rcases Nat.lt_or_ge (st.solutions ++ dC).length K with h' | h'
            · exact h'
            · exact absurd ((capReached_some K _).mpr h') hcap
          have hdUeq : dC = dU := by
            have hltU : (st.solutions ++ dU).length < K := by
              by_contra hge
              have : ((st.solutions ++ dU).take K).length = K := by
                rw [List.length_take]
                omega
              rw [← htake] at this
              omega
            have : (st.solutions ++ dU).take K = st.solutions ++ dU :=
              List.take_of_length_le (Nat.le_of_lt hltU)
            rw [this] at htake
            exact List.append_cancel_left htake
          subst hdUeq
          have hcapu : capReached none (st.solutions ++ dC) = false := rfl
          simp only [hcap, hcapu, if_false]
          exact ih ⟨st.remaining, st.currentLetters, st.currentWords,
            st.solutions ++ dC⟩ (by simpa using Nat.le_of_lt hlt)
      · simp only [trieLoop, hl, if_false]
        exact ih st h

/-- Cap-versus-uncapped relation for the three search functions: starting
from at most `K` accumulated solutions, the capped run's solutions list is
the `K`-prefix of the uncapped run's. -/
theorem cap_take (ctx : Ctx) (K : Nat) : ∀ f : Nat,
    (∀ st : SearchSt, st.solutions.length ≤ K →
      (search ctx (some K) f st).solutions =
        ((search ctx none f st).solutions).take K) ∧
    (∀ st : SearchSt, st.solutions.length ≤ K →
      (findWordsFromRoot ctx (some K) f st).solutions =
        ((findWordsFromRoot ctx none f st).solutions).take K) ∧
    (∀ (node : TrieNode) (st : TrieSt), st.solutions.length ≤ K →
      (searchTrie ctx (some K) f node st).solutions =
        ((searchTrie ctx none f node st).solutions).take K) := by
  intro f
  induction f with
  | zero =>
      refine ⟨fun st h => ?_, fun st h => ?_, fun node st h => ?_⟩ <;>
        simpa [search, findWordsFromRoot, searchTrie] using
          (List.take_of_length_le h).symm
  | succ f ih =>
      obtain ⟨ihS, ihF, ihT⟩ := ih
      refine ⟨?_, ?_, ?_⟩
      · intro st h
        by_cases h1 : capReached (some K) st.solutions = true
        · have hK : st.solutions.length = K :=
            Nat.le_antisymm h ((capReached_some K _).mp h1)
          have hcapped : (search ctx (some K) (f + 1) st).solutions = st.solutions := by
            simp [search, h1]
          obtain ⟨d, hd⟩ := (sols_extend ctx none (f + 1)).1 st
          rw [hcapped, hd]
          dsimp only
          rw [← hK, List.take_left]
        · have h1u : capReached none st.solutions = false := rfl
          by_cases h2 : st.remaining = 0
          · have hlt : st.solutions.length < K := by
              rcases Nat.lt_or_ge st.solutions.length K with h' | h'
              · exact h'
              · exact absurd ((capReached_some K _).mpr h') h1
            simp only [search, h1, h1u, h2, Bool.false_eq_true, if_false, if_true,
              eq_self_iff_true]
            rw [List.take_of_length_le]
            simp only [List.length_append, List.length_cons, List.length_nil]
            omega
          · by_cases h3 : Multiset.card st.remaining ≤ 0
            · simp only [search, h1, h1u, h2, h3, Bool.false_eq_true, if_false,
                if_true, eq_self_iff_true]
              exact (List.take_of_length_le h).symm
            · simpa [search, h1, h1u, h2, h3] using ihF st h
      · intro st h
        cases hf : findRarest ctx.letterOrder st.remaining with
        | none =>
            simp only [findWordsFromRoot, hf]
            exact (List.take_of_length_le h).symm
        | some l =>
            cases hc : lookupChild ctx.root.children l with
            | none =>
                simp only [findWordsFromRoot, hf, hc]
                exact (List.take_of_length_le h).symm
            | some child =>
                have hrec := ihT child
                  ⟨st.remaining.erase l, [l], st.currentWords, st.solutions⟩
                  (by simpa using h)
                simpa [findWordsFromRoot, hf, hc] using hrec
      · intro node st h
        by_cases h1 : capReached (some K) st.solutions = true
        · have hK : st.solutions.length = K :=
            Nat.le_antisymm h ((capReached_some K _).mp h1)
          have hcapped : (searchTrie ctx (some K) (f + 1) node st).solutions =
              st.solutions := by
            simp [searchTrie, h1]
          obtain ⟨d, hd⟩ := (sols_extend ctx none (f + 1)).2.2 node st
          rw [hcapped, hd]
          dsimp only
          rw [← hK, List.take_left]
        · have h1u : capReached none st.solutions = false := rfl
          obtain ⟨cj1, cj2, cj3⟩ := trieLoop_cap_take ctx K f ihT node.children st h
          obtain ⟨dC, bC, hC⟩ := trieLoop_extends ctx (some K) f
            ((sols_extend ctx (some K) f).2.2) node.children st
          obtain ⟨dU, bU, hU⟩ := trieLoop_extends ctx none f
            ((sols_extend ctx none f).2.2) node.children st
          have hbU : bU = false := by
            have hNE := trieLoop_none_no_early ctx f node.children st
            rw [hU] at hNE
            simpa using hNE
          subst hbU
          rw [hC, hU] at cj1
          dsimp only at cj1
          have hlenC : (st.solutions ++ dC).length ≤ K := by
            rw [cj1, List.length_take]
            omega
          by_cases hb : bC = true
          · subst hb
            have hf2 : (trieLoop ctx (some K) f node.children st).2 = true := by
              rw [hC]
            have hlenK : (st.solutions ++ dC).length = K := by
              have := cj2 hf2
              rw [hC] at this
              simpa using this
            have hKU : K ≤ (st.solutions ++ dU).length := by
              have : ((st.solutions ++ dU).take K).length = K := by
                rw [← cj1, hlenK]
              rw [List.length_take] at this
              omega
            have hcappedT : (searchTrie ctx (some K) (f + 1) node st).solutions =
                st.solutions ++ dC := by
              simp [searchTrie, h1, hC]
            rw [hcappedT]
            cases hw : node.isWord with
            | false =>
                simp only [searchTrie, h1u, Bool.false_eq_true, if_false, hU, hw]
                exact cj1
            | true =>
                cases hk : node.key with
                | none =>
                    simp only [searchTrie, h1u, Bool.false_eq_true, if_false, hU, hw, hk]
                    exact cj1
                | some k =>
                    by_cases hke : k = []
                    · simp only [searchTrie, h1u, Bool.false_eq_true, if_false, hU,
                        hw, hk, hke, if_true, eq_self_iff_true]
                      exact cj1
                    · cases hlk : lookupKey ctx.keyToWords k with
                      | none =>
                          simp only [searchTrie, h1u, Bool.false_eq_true, if_false,
                            hU, hw, hk, hke, hlk]
                          exact cj1
                      | some ws =>
                          by_cases hwse : ws = []
                          · simp only [searchTrie, h1u, Bool.false_eq_true, if_false,
                              hU, hw, hk, hke, hlk, hwse, if_true, eq_self_iff_true]
                            exact cj1
                          · obtain ⟨d2, hd2⟩ := (sols_extend ctx none f).1
                              ⟨st.remaining, st.currentWords ++ [ws], st.solutions ++ dU⟩
                            have hgoalU : (searchTrie ctx none (f + 1) node st).solutions =
                                st.solutions ++ dU ++ d2 := by
                              simp [searchTrie, h1u, hU, hw, hk, hke, hlk, hwse, hd2]
                            rw [hgoalU, List.take_append_of_le_length hKU]
                            exact cj1
          · have hbC : bC = false := by
              cases bC
              · rfl
              · exact absurd rfl hb
            subst hbC
            have hf2 : (trieLoop ctx (some K) f node.children st).2 = false := by
              rw [hC]
            have hdeq : dC = dU := by
              have := cj3 hf2
              rw [hC, hU] at this
              dsimp only at this
              exact List.append_cancel_left this
            subst hdeq
            cases hw : node.isWord with
            | false =>
                simp only [searchTrie, h1, h1u, Bool.false_eq_true, if_false,
                  hC, hU, hw]
                exact (List.take_of_length_le hlenC).symm
            | true =>
                cases hk : node.key with
                | none =>
                    simp only [searchTrie, h1, h1u, Bool.false_eq_true, if_false,
                      hC, hU, hw, hk]
                    exact (List.take_of_length_le hlenC).symm
                | some k =>
                    by_cases hke : k = []
                    · simp only [searchTrie, h1, h1u, Bool.false_eq_true, if_false,
                        hC, hU, hw, hk, hke, if_true, eq_self_iff_true]
                      exact (List.take_of_length_le hlenC).symm
                    · cases hlk : lookupKey ctx.keyToWords k with
                      | none =>
                          simp only [searchTrie, h1, h1u, Bool.false_eq_true,
                            if_false, hC, hU, hw, hk, hke, hlk]
                          exact (List.take_of_length_le hlenC).symm
                      | some ws =>
                          by_cases hwse : ws = []
                          · simp only [searchTrie, h1, h1u, Bool.false_eq_true,
                              if_false, hC, hU, hw, hk, hke, hlk, hwse, if_true,
                              eq_self_iff_true]
                            exact (List.take_of_length_le hlenC).symm
                          · have hgoalC : (searchTrie ctx (some K) (f + 1) node st).solutions =
                                (search ctx (some K) f ⟨st.remaining,
                                  st.currentWords ++ [ws], st.solutions ++ dC⟩).solutions := by
                              simp [searchTrie, h1, hC, hw, hk, hke, hlk, hwse]
                            have hgoalU : (searchTrie ctx none (f + 1) node st).solutions =
                                (search ctx none f ⟨st.remaining,
                                  st.currentWords ++ [ws], st.solutions ++ dC⟩).solutions := by
                              simp [searchTrie, h1u, hU, hw, hk, hke, hlk, hwse]
                            rw [hgoalC, hgoalU]
                            exact ihS ⟨st.remaining, st.currentWords ++ [ws],
                              st.solutions ++ dC⟩ hlenC

/-- Claim C3: for every lexicon, target, exclusions and every `K`, the run
with `max_solutions = K` returns exactly the first `K` solutions, in order,
of the unlimited run on the same inputs (the whole list when it is shorter
than `K`).  Determinism of repeated runs is definitional here: the
embedding is a pure function of its inputs. -/
theorem solvePangram_cap_prefix (shawWords : List Word) (posOf : Word → List String)
    (targetLetters : List Char) (K : Nat) (excludeWords : List Word)
    (excludePos : List String) :
    solvePangram shawWords posOf targetLetters (some K) excludeWords excludePos =
      (solvePangram shawWords posOf targetLetters none excludeWords excludePos).take K := by
  unfold solvePangram
  by_cases hroot : (buildTrie shawWords posOf targetLetters excludeWords
      excludePos).root.children.isEmpty
  · simp [hroot]
  · simp only [hroot, Bool.false_eq_true, if_false]
    exact (cap_take ⟨(buildTrie shawWords posOf targetLetters excludeWords
        excludePos).letterOrder,
      (buildTrie shawWords posOf targetLetters excludeWords excludePos).root,
      (buildTrie shawWords posOf targetLetters excludeWords excludePos).keyToWords⟩
      K (searchFuel ((targetLetters : List Char) : Multiset Char))).1
      ⟨((targetLetters : List Char) : Multiset Char), [], []⟩ (by simp)

/-! ### Well-formedness of the built trie and of `key_to_words`
(towards C1 and C5) -/

/-- The empty trie node is well-formed at every path. -/
theorem nodeWF_empty (p : List Char) : NodeWF emptyNode p := by
  refine NodeWF.mk (fun kk h => ?_) (fun l c h => ?_)
  · cases h
  · cases h

/-- Membership after a `setChild` update: the new binding or an old one. -/
theorem mem_setChild : ∀ {cs : List (Char × TrieNode)} {x : Char} {v : TrieNode}
    {l : Char} {c : TrieNode},
    (l, c) ∈ setChild cs x v → (l = x ∧ c = v) ∨ (l, c) ∈ cs := by
  intro cs
  induction cs with
  | nil =>
      intro x v l c h
      simp [setChild] at h
      exact Or.inl ⟨h.1, h.2⟩
  | cons p rest ih =>
      intro x v l c h
      obtain ⟨e, t⟩ := p
      by_cases hx : x = e
      · subst hx
        simp only [setChild, if_pos rfl] at h
        rcases List.mem_cons.mp h with h1 | h1
        · cases h1
          exact Or.inl ⟨rfl, rfl⟩
        · exact Or.inr (List.mem_cons.mpr (Or.inr h1))
      · simp only [setChild, if_neg hx] at h
        rcases List.mem_cons.mp h with h1 | h1
        · cases h1
          exact Or.inr (List.mem_cons.mpr (Or.inl rfl))
        · rcases ih h1 with h2 | h2
          · exact Or.inl h2
          · exact Or.inr (List.mem_cons.mpr (Or.inr h2))

/-- A successful `lookupChild` witnesses membership. -/
theorem lookupChild_mem : ∀ {cs : List (Char × TrieNode)} {x : Char} {c : TrieNode},
    lookupChild cs x = some c → (x, c) ∈ cs := by
  intro cs
  induction cs with
  | nil => intro x c h; cases h
  | cons p rest ih =>
      intro x c h
      obtain ⟨e, t⟩ := p
      by_cases hx : x = e
      · subst hx
        simp only [lookupChild, if_pos rfl] at h
        cases h
        exact List.mem_cons.mpr (Or.inl rfl)
      · simp only [lookupChild, if_neg hx] at h
        exact List.mem_cons.mpr (Or.inr (ih h))

/-- Inserting a key whose suffix extends the current path preserves trie
well-formedness: the key stored at the final node is exactly the path that
leads to it. -/
theorem nodeWF_addKeyGo (full : Key) : ∀ (suffix : List Char) (t : TrieNode)
    (p : List Char), NodeWF t p → full = p ++ suffix →
    NodeWF (addKeyGo full t suffix) p := by
  intro suffix
  induction suffix with
  | nil =>
      intro t p hwf hfull
      cases t with
      | mk cs w k =>
          obtain ⟨hkey, hch⟩ := hwf
          refine NodeWF.mk (fun kk h => ?_) hch
          cases h
          simpa using hfull
  | cons l rest ih =>
      intro t p hwf hfull
      cases t with
      | mk cs w k =>
          obtain ⟨hkey, hch⟩ := hwf
          refine NodeWF.mk hkey (fun l' c' hmem => ?_)
          rcases mem_setChild hmem with ⟨hl, hc⟩ | hold
          · subst hc
            rw [hl]
            have hchild : NodeWF ((lookupChild cs l).getD emptyNode) (p ++ [l]) := by
              cases hlook : lookupChild cs l with
              | none => exact nodeWF_empty _
              | some c0 => simpa using hch l c0 (lookupChild_mem hlook)
            exact ih _ (p ++ [l]) hchild (by simpa [List.append_assoc] using hfull)
          · exact hch l' c' hold

/-- The trie built by folding `addKey` over any key list is well-formed. -/
theorem nodeWF_foldl_addKey (keys : List Key) : ∀ (t : TrieNode), NodeWF t [] →
    NodeWF (keys.foldl addKey t) [] := by
  induction keys with
  | nil => intro t h; exact h
  | cons k rest ih =>
      intro t h
      exact ih _ (nodeWF_addKeyGo k k t [] h rfl)

/-- Sorting the children of every node preserves trie well-formedness. -/
theorem nodeWF_sortChildren (lo : List Char) : ∀ {t : TrieNode} {p : List Char},
    NodeWF t p → NodeWF (sortChildren lo t) p := by
  intro t p h
  induction h with
  | mk hkey hch ih =>
      rw [sortChildren]
      refine NodeWF.mk hkey (fun l c' hmem => ?_)
      rcases List.mem_map.mp hmem with ⟨q, hq, hqc⟩
      obtain ⟨⟨l0, c0⟩, hq0⟩ := q
      have hmem0 : (l0, c0) ∈ _ := (List.mem_insertionSort _).mp hq0
      rw [Prod.mk.injEq] at hqc
      obtain ⟨h1, h2⟩ := hqc
      subst h2
      rw [← h1]
      exact ih _ _ hmem0

/-- Invariant of one `addToGroup` step: all groups keep holding only words
satisfying `P` whose key is the group key, and stay non-empty. -/
theorem addToGroup_invariant {lo : List Char} {P : Word → Prop} :
    ∀ {groups : List (Key × List Word)} {k0 : Key} {w0 : Word},
    (∀ k ws, (k, ws) ∈ groups → ws ≠ [] ∧ ∀ w ∈ ws, P w ∧ sortKey lo w = k) →
    P w0 → sortKey lo w0 = k0 →
    ∀ k ws, (k, ws) ∈ addToGroup groups k0 w0 →
      ws ≠ [] ∧ ∀ w ∈ ws, P w ∧ sortKey lo w = k := by
  intro groups
  induction groups with
  | nil =>
      intro k0 w0 hinv hp hk k ws hmem
      rw [show addToGroup [] k0 w0 = [(k0, [w0])] from rfl,
        List.mem_singleton, Prod.mk.injEq] at hmem
      obtain ⟨hk1, hw1⟩ := hmem
      subst hk1
      subst hw1
      refine ⟨by simp, ?_⟩
      intro w hw
      have hww : w = w0 := by simpa using hw
      subst hww
      exact ⟨hp, hk⟩
  | cons g rest ih =>
      intro k0 w0 hinv hp hk k ws hmem
      obtain ⟨kg, wsg⟩ := g
      by_cases hkk : k0 = kg
      · rw [show addToGroup ((kg, wsg) :: rest) k0 w0 =
            (kg, if w0 ∈ wsg then wsg else wsg ++ [w0]) :: rest from by
              simp [addToGroup, hkk]] at hmem
        rcases List.mem_cons.mp hmem with h1 | h1
        · rw [Prod.mk.injEq] at h1
          obtain ⟨h2, h3⟩ := h1
          subst h2
          obtain ⟨hne, hall⟩ := hinv k wsg (List.mem_cons.mpr (Or.inl rfl))
          by_cases hw0 : w0 ∈ wsg
          · rw [if_pos hw0] at h3
            subst h3
            exact ⟨hne, hall⟩
          · rw [if_neg hw0] at h3
            subst h3
            refine ⟨by simp, ?_⟩
            intro w hw
            rcases List.mem_append.mp hw with h4 | h4
            · exact hall w h4
            · have hww : w = w0 := by simpa using h4
              subst hww
              exact ⟨hp, hkk ▸ hk⟩
        · exact hinv k ws (List.mem_cons.mpr (Or.inr h1))
      · rw [show addToGroup ((kg, wsg) :: rest) k0 w0 =
            (kg, wsg) :: addToGroup rest k0 w0 from by simp [addToGroup, hkk]] at hmem
        rcases List.mem_cons.mp hmem with h1 | h1
        · rw [Prod.mk.injEq] at h1
          obtain ⟨h2, h3⟩ := h1
          subst h2
          subst h3
          exact hinv k ws (List.mem_cons.mpr (Or.inl rfl))
        · exact ih (fun k2 ws2 hm => hinv k2 ws2 (List.mem_cons.mpr (Or.inr hm)))
            hp hk k ws h1

/-- Invariant of the grouping fold over a word list. -/
theorem groups_fold_invariant {lo : List Char} {P : Word → Prop} :
    ∀ (l : List Word) (acc : List (Key × List Word)),
    (∀ k ws, (k, ws) ∈ acc → ws ≠ [] ∧ ∀ w ∈ ws, P w ∧ sortKey lo w = k) →
    (∀ w ∈ l, P w) →
    ∀ k ws, (k, ws) ∈ l.foldl (fun g w => addToGroup g (sortKey lo w) w) acc →
      ws ≠ [] ∧ ∀ w ∈ ws, P w ∧ sortKey lo w = k := by
  intro l
  induction l with
  | nil => intro acc hacc _ k ws hmem; exact hacc k ws hmem
  | cons w0 rest ih =>
      intro acc hacc hl k ws hmem
      refine ih _ ?_ (fun w hw => hl w (List.mem_cons.mpr (Or.inr hw))) k ws hmem
      exact fun k2 ws2 hm => addToGroup_invariant hacc
        (hl w0 (List.mem_cons.mpr (Or.inl rfl))) rfl k2 ws2 hm

/-- Soundness of `key_to_words` as built by `build_trie`: every group is a
non-empty list of filtered-pool words that are anagrams of the group's
key. -/
theorem ktwGood_keyToWordsOf (lo : List Char) (fw : List Word) :
    KtwGood (keyToWordsOf lo fw) fw := by
  intro k ws hmem
  unfold keyToWordsOf at hmem
  rcases List.mem_map.mp hmem with ⟨⟨k0, ws0⟩, hmem0, heq⟩
  rw [Prod.mk.injEq] at heq
  obtain ⟨hk0, hws0⟩ := heq
  subst hk0
  subst hws0
  have hinv := @groups_fold_invariant lo (fun w => w ∈ fw) fw []
    (fun kk wws hh => by cases hh) (fun w hw => hw) k0 ws0 hmem0
  obtain ⟨hne, hall⟩ := hinv
  constructor
  · intro hnil
    have hlen : ws0.length = 0 := by
      have := (List.perm_insertionSort wordLeP ws0).length_eq
      rw [hnil] at this
      simpa using this.symm
    exact hne (List.length_eq_zero.mp hlen)
  · intro w hw
    have hw0 : w ∈ ws0 := (List.perm_insertionSort wordLeP ws0).mem_iff.mp hw
    obtain ⟨hfw, hkey⟩ := hall w hw0
    refine ⟨hfw, ?_⟩
    rw [← hkey]
    exact Multiset.coe_eq_coe.mpr (sortKey_perm lo w).symm

/-- A successful `lookupKey` witnesses membership. -/
theorem lookupKey_mem : ∀ {ktw : List (Key × List Word)} {k : Key} {ws : List Word},
    lookupKey ktw k = some ws → (k, ws) ∈ ktw := by
  intro ktw
  induction ktw with
  | nil => intro k ws h; cases h
  | cons p rest ih =>
      intro k ws h
      obtain ⟨k', ws'⟩ := p
      by_cases hk : k = k'
      · subst hk
        simp only [lookupKey, if_pos rfl] at h
        cases h
        exact List.mem_cons.mpr (Or.inl rfl)
      · simp only [lookupKey, if_neg hk] at h
        exact List.mem_cons.mpr (Or.inr (ih h))

/-- Membership in `filtered_words` unpacked: a lexicon word that is not
excluded, carries no excluded tag, and uses only target letters. -/
theorem mem_filteredWords {shawWords : List Word} {posOf : Word → List String}
    {targetLetters : List Char} {excludeWords : List Word} {excludePos : List String}
    {w : Word}
    (h : w ∈ filteredWords shawWords posOf targetLetters excludeWords excludePos) :
    w ∈ shawWords ∧ w ∉ excludeWords ∧
      (∀ p ∈ posOf w, p ∉ excludePos) ∧ (∀ c ∈ w, c ∈ targetLetters) := by
  obtain ⟨hmem, hkeep⟩ := List.mem_filter.mp h
  unfold keepWord at hkeep
  simp at hkeep
  exact ⟨hmem, hkeep.1.1, fun p hp => hkeep.1.2 p hp, fun c hc => hkeep.2 c hc⟩

/-! ### The master search invariant (towards C1 and C5) -/

/-- The default-head of a non-empty list is a member. -/
theorem headD_mem {α : Type} {l : List α} (h : l ≠ []) (d : α) : l.headD d ∈ l := by
  cases l with
  | nil => exact absurd rfl h
  | cons a t => simp

/-- Children of a well-formed node are well-formed at the extended path. -/
theorem nodeWF_children {t : TrieNode} {p : List Char} {l : Char} {c : TrieNode}
    (h : NodeWF t p) (hm : (l, c) ∈ t.children) : NodeWF c (p ++ [l]) := by
  cases h with
  | mk hkey hch => exact hch l c (by simpa [TrieNode.children] using hm)

/-- The key stored at a well-formed node is the path leading to it. -/
theorem nodeWF_key {t : TrieNode} {p : List Char} {k : Key}
    (h : NodeWF t p) (hk : t.key = some k) : k = p := by
  cases h with
  | mk hkey hch => exact hkey k (by simpa [TrieNode.key] using hk)

/-- Multiset bookkeeping for one trie descent: consuming a letter and
extending the ghost path by it cancel out. -/
theorem erase_add_path (r : Multiset Char) (l : Char) (hl : l ∈ r) (p : List Char) :
    r.erase l + ((p ++ [l] : List Char) : Multiset Char) = r + (p : Multiset Char) := by
  have h1 : ((p ++ [l] : List Char) : Multiset Char) =
      ({l} : Multiset Char) + (p : Multiset Char) := by
    have h2 : ((p ++ [l] : List Char) : Multiset Char) =
        (p : Multiset Char) + (([l] : List Char) : Multiset Char) := by
      rw [← Multiset.coe_add]
    rw [h2, Multiset.coe_singleton, add_comm]
  rw [h1, ← add_assoc]
  have h3 : r.erase l + ({l} : Multiset Char) = r := by
    rw [add_comm, Multiset.singleton_add]
    exact Multiset.cons_erase hl
  rw [h3]

/-- Invariant of the child loop: every solution present after the loop was
either already present, or is the current path extended by anagram groups
of `key_to_words` whose letters sum to the remaining letters at loop entry
plus the letters of the ghost path `p` leading to the current node. -/
theorem trieLoop_invariant (ctx : Ctx) (cap : Option Nat) (f : Nat)
    (Ht : ∀ (node : TrieNode) (st : TrieSt) (p : List Char), NodeWF node p →
      ∀ s ∈ (searchTrie ctx cap f node st).solutions,
      s ∈ st.solutions ∨ ∃ ext, s = st.currentWords ++ ext ∧
        (∀ slot ∈ ext, SlotFrom ctx.keyToWords slot) ∧
        slotsMS ext = st.remaining + (p : Multiset Char)) :
    ∀ (cs : List (Char × TrieNode)) (st : TrieSt) (p : List Char),
      (∀ l c, (l, c) ∈ cs → NodeWF c (p ++ [l])) →
      ∀ s ∈ (trieLoop ctx cap f cs st).1.solutions,
      s ∈ st.solutions ∨ ∃ ext, s = st.currentWords ++ ext ∧
        (∀ slot ∈ ext, SlotFrom ctx.keyToWords slot) ∧
        slotsMS ext = st.remaining + (p : Multiset Char) := by
  intro cs
  induction cs with
  | nil =>
      intro st p _ s hs
      simp only [trieLoop] at hs
      exact Or.inl hs
  | cons q rest ih =>
      intro st p hWFcs s hs
      obtain ⟨l, c⟩ := q
      by_cases hl : 0 < st.remaining.count l
      · have hmem : l ∈ st.remaining := Multiset.count_pos.mp hl
        obtain ⟨d1, hd1⟩ := (sols_extend ctx cap f).2.2 c
          ⟨st.remaining.erase l, st.currentLetters ++ [l], st.currentWords, st.solutions⟩
        dsimp only at hd1
        rw [show trieLoop ctx cap f ((l, c) :: rest) st =
            (if capReached cap ((searchTrie ctx cap f c
                ⟨st.remaining.erase l, st.currentLetters ++ [l], st.currentWords,
                  st.solutions⟩).solutions) = true then
              (⟨l ::ₘ (searchTrie ctx cap f c ⟨st.remaining.erase l,
                  st.currentLetters ++ [l], st.currentWords, st.solutions⟩).remaining,
                (searchTrie ctx cap f c ⟨st.remaining.erase l, st.currentLetters ++ [l],
                  st.currentWords, st.solutions⟩).currentLetters.dropLast,
                (searchTrie ctx cap f c ⟨st.remaining.erase l, st.currentLetters ++ [l],
                  st.currentWords, st.solutions⟩).currentWords,
                (searchTrie ctx cap f c ⟨st.remaining.erase l, st.currentLetters ++ [l],
                  st.currentWords, st.solutions⟩).solutions⟩, true)
            else trieLoop ctx cap f rest
              ⟨l ::ₘ (searchTrie ctx cap f c ⟨st.remaining.erase l,
                  st.currentLetters ++ [l], st.currentWords, st.solutions⟩).remaining,
                (searchTrie ctx cap f c ⟨st.remaining.erase l, st.currentLetters ++ [l],
                  st.currentWords, st.solutions⟩).currentLetters.dropLast,
                (searchTrie ctx cap f c ⟨st.remaining.erase l, st.currentLetters ++ [l],
                  st.currentWords, st.solutions⟩).currentWords,
                (searchTrie ctx cap f c ⟨st.remaining.erase l, st.currentLetters ++ [l],
                  st.currentWords, st.solutions⟩).solutions⟩) from by
          simp [trieLoop, hl]] at hs
        rw [hd1] at hs
        dsimp only at hs
        rw [Multiset.cons_erase hmem, List.dropLast_concat] at hs
        have hchar : ∀ s2 ∈ st.solutions ++ d1,
            s2 ∈ st.solutions ∨ ∃ ext, s2 = st.currentWords ++ ext ∧
              (∀ slot ∈ ext, SlotFrom ctx.keyToWords slot) ∧
              slotsMS ext = st.remaining + (p : Multiset Char) := by
          intro s2 hs2
          have := Ht c ⟨st.remaining.erase l, st.currentLetters ++ [l],
            st.currentWords, st.solutions⟩ (p ++ [l])
            (hWFcs l c (List.mem_cons.mpr (Or.inl rfl))) s2 (by rw [hd1]; exact hs2)
          rcases this with h | ⟨ext, hext, hfrom, hms⟩
          · exact Or.inl h
          · refine Or.inr ⟨ext, hext, hfrom, ?_⟩
            rw [hms]
            exact erase_add_path st.remaining l hmem p
        by_cases hcap : capReached cap (st.solutions ++ d1) = true
        · rw [if_pos hcap] at hs
          exact hchar s hs
        · rw [if_neg hcap] at hs
          have := ih ⟨st.remaining, st.currentLetters, st.currentWords,
            st.solutions ++ d1⟩ p (fun l2 c2 hm2 =>
              hWFcs l2 c2 (List.mem_cons.mpr (Or.inr hm2))) s hs
          rcases this with h | ⟨ext, hext, hfrom, hms⟩
          · exact hchar s h
          · exact Or.inr ⟨ext, hext, hfrom, hms⟩
      · rw [show trieLoop ctx cap f ((l, c) :: rest) st = trieLoop ctx cap f rest st from by
          simp [trieLoop, hl]] at hs
        exact ih st p (fun l2 c2 hm2 => hWFcs l2 c2 (List.mem_cons.mpr (Or.inr hm2))) s hs

/-- Master invariant of the backtracking search: every solution present
after a call was either already present at entry, or is the entry path
extended by anagram groups of `key_to_words` whose letters sum exactly to
the remaining multiset at entry (plus, for a trie walk, the letters of the
path leading to the current node). -/
theorem search_invariant (ctx : Ctx) (cap : Option Nat) (fw : List Word)
    (HWF : NodeWF ctx.root []) (HK : KtwGood ctx.keyToWords fw) : ∀ f : Nat,
    (∀ st : SearchSt, ∀ s ∈ (search ctx cap f st).solutions,
      s ∈ st.solutions ∨ ∃ ext, s = st.currentWords ++ ext ∧
        (∀ slot ∈ ext, SlotFrom ctx.keyToWords slot) ∧
        slotsMS ext = st.remaining) ∧
    (∀ st : SearchSt, ∀ s ∈ (findWordsFromRoot ctx cap f st).solutions,
      s ∈ st.solutions ∨ ∃ ext, s = st.currentWords ++ ext ∧
        (∀ slot ∈ ext, SlotFrom ctx.keyToWords slot) ∧
        slotsMS ext = st.remaining) ∧
    (∀ (node : TrieNode) (st : TrieSt) (p : List Char), NodeWF node p →
      ∀ s ∈ (searchTrie ctx cap f node st).solutions,
      s ∈ st.solutions ∨ ∃ ext, s = st.currentWords ++ ext ∧
        (∀ slot ∈ ext, SlotFrom ctx.keyToWords slot) ∧
        slotsMS ext = st.remaining + (p : Multiset Char)) := by
  intro f
  induction f with
  | zero =>
      refine ⟨?_, ?_, ?_⟩
      · intro st s hs
        simp only [search] at hs
        exact Or.inl hs
      · intro st s hs
        simp only [findWordsFromRoot] at hs
        exact Or.inl hs
      · intro node st p _ s hs
        simp only [searchTrie] at hs
        exact Or.inl hs
  | succ f ih =>
      obtain ⟨ihS, ihF, ihT⟩ := ih
      refine ⟨?_, ?_, ?_⟩
      · intro st s hs
        by_cases h1 : capReached cap st.solutions = true
        · rw [show search ctx cap (f + 1) st = st from by simp [search, h1]] at hs
          exact Or.inl hs
        · by_cases h2 : st.remaining = 0
          · rw [show search ctx cap (f + 1) st =
                ⟨st.remaining, st.currentWords, st.solutions ++ [st.currentWords]⟩ from by
                  simp [search, h1, h2]] at hs
            dsimp only at hs
            rcases List.mem_append.mp hs with h | h
            · exact Or.inl h
            · have hcw : s = st.currentWords := by simpa using h
              refine Or.inr ⟨[], by simp [hcw], by simp, ?_⟩
              simp [slotsMS, h2]
          · by_cases h3 : Multiset.card st.remaining ≤ 0
            · rw [show search ctx cap (f + 1) st = st from by
                simp [search, h1, h2, h3]] at hs
              exact Or.inl hs
            · rw [show search ctx cap (f + 1) st = findWordsFromRoot ctx cap f st from by
                simp [search, h1, h2, h3]] at hs
              exact ihF st s hs
      · intro st s hs
        cases hf : findRarest ctx.letterOrder st.remaining with
        | none =>
            rw [show findWordsFromRoot ctx cap (f + 1) st = st from by
              simp [findWordsFromRoot, hf]] at hs
            exact Or.inl hs
        | some l =>
            cases hc : lookupChild ctx.root.children l with
            | none =>
                rw [show findWordsFromRoot ctx cap (f + 1) st = st from by
                  simp [findWordsFromRoot, hf, hc]] at hs
                exact Or.inl hs
            | some child =>
                have hmem : l ∈ st.remaining := Multiset.count_pos.mp (findRarest_pos hf)
                have hWFc : NodeWF child [l] := by
                  have := nodeWF_children HWF (lookupChild_mem hc)
                  simpa using this
                rw [show (findWordsFromRoot ctx cap (f + 1) st).solutions =
                    (searchTrie ctx cap f child ⟨st.remaining.erase l, [l],
                      st.currentWords, st.solutions⟩).solutions from by
                  simp [findWordsFromRoot, hf, hc]] at hs
                have hrec := ihT child ⟨st.remaining.erase l, [l], st.currentWords,
                  st.solutions⟩ [l] hWFc s hs
                rcases hrec with h | ⟨ext, hext, hfrom, hms⟩
                · exact Or.inl h
                · refine Or.inr ⟨ext, hext, hfrom, ?_⟩
                  rw [hms]
                  have := erase_add_path st.remaining l hmem []
                  simpa using this
      · intro node st p hWF s hs
        by_cases h1 : capReached cap st.solutions = true
        · rw [show searchTrie ctx cap (f + 1) node st = st from by
            simp [searchTrie, h1]] at hs
          exact Or.inl hs
        · obtain ⟨dL, bL, hL⟩ := trieLoop_extends ctx cap f
            ((sols_extend ctx cap f).2.2) node.children st
          have hWFch : ∀ l c, (l, c) ∈ node.children → NodeWF c (p ++ [l]) :=
            fun l c hm => nodeWF_children hWF hm
          have hloopchar : ∀ s2 ∈ st.solutions ++ dL,
              s2 ∈ st.solutions ∨ ∃ ext, s2 = st.currentWords ++ ext ∧
                (∀ slot ∈ ext, SlotFrom ctx.keyToWords slot) ∧
                slotsMS ext = st.remaining + (p : Multiset Char) := by
            intro s2 hs2
            exact trieLoop_invariant ctx cap f ihT node.children st p hWFch s2
              (by rw [hL]; exact hs2)
          by_cases hb : bL = true
          · subst hb
            rw [show (searchTrie ctx cap (f + 1) node st).solutions =
                st.solutions ++ dL from by simp [searchTrie, h1, hL]] at hs
            exact hloopchar s hs
          · have hbf : bL = false := by
              cases bL
              · rfl
              · exact absurd rfl hb
            subst hbf
            cases hw : node.isWord with
            | false =>
                rw [show (searchTrie ctx cap (f + 1) node st).solutions =
                    st.solutions ++ dL from by simp [searchTrie, h1, hL, hw]] at hs
                exact hloopchar s hs
            | true =>
                cases hk : node.key with
                | none =>
                    rw [show (searchTrie ctx cap (f + 1) node st).solutions =
                        st.solutions ++ dL from by
                      simp [searchTrie, h1, hL, hw, hk]] at hs
                    exact hloopchar s hs
                | some k =>
                    by_cases hke : k = []
                    · rw [show (searchTrie ctx cap (f + 1) node st).solutions =
                          st.solutions ++ dL from by
                        simp [searchTrie, h1, hL, hw, hk, hke]] at hs
                      exact hloopchar s hs
                    · cases hlk : lookupKey ctx.keyToWords k with
                      | none =>
                          rw [show (searchTrie ctx cap (f + 1) node st).solutions =
                              st.solutions ++ dL from by
                            simp [searchTrie, h1, hL, hw, hk, hke, hlk]] at hs
                          exact hloopchar s hs
                      | some ws =>
                          by_cases hwse : ws = []
                          · rw [show (searchTrie ctx cap (f + 1) node st).solutions =
                                st.solutions ++ dL from by
                              simp [searchTrie, h1, hL, hw, hk, hke, hlk, hwse]] at hs
                            exact hloopchar s hs
                          · have hkp : k = p := nodeWF_key hWF hk
                            have hktw := HK k ws (lookupKey_mem hlk)
                            rw [show (searchTrie ctx cap (f + 1) node st).solutions =
                                (search ctx cap f ⟨st.remaining,
                                  st.currentWords ++ [ws],
                                  st.solutions ++ dL⟩).solutions from by
                              simp [searchTrie, h1, hL, hw, hk, hke, hlk, hwse]] at hs
                            have hrec := ihS ⟨st.remaining, st.currentWords ++ [ws],
                              st.solutions ++ dL⟩ s hs
                            rcases hrec with h | ⟨ext, hext, hfrom, hms⟩
                            · exact hloopchar s h
                            · refine Or.inr ⟨ws :: ext, ?_, ?_, ?_⟩
                              · rw [hext]
                                simp
                              · intro slot hslot
                                rcases List.mem_cons.mp hslot with h7 | h7
                                · subst h7
                                  exact ⟨k, lookupKey_mem hlk⟩
                                · exact hfrom slot h7
                              · have hmsws : msOfSlot ws = (k : Multiset Char) := by
                                  have hh := (hktw.2 (ws.headD []) (headD_mem hktw.1 [])).2
                                  simpa [msOfSlot] using hh
                                rw [show slotsMS (ws :: ext) =
                                    msOfSlot ws + slotsMS ext from by simp [slotsMS]]
                                rw [hmsws, hms, hkp]
                                dsimp only
                                rw [add_comm]

/-- Letter sum of a representative choice: choosing any one member per slot
yields the slot-multiset sum, because all members of a `key_to_words` group
are anagrams of its key. -/
theorem reps_sum_eq_slotsMS {ktw : List (Key × List Word)} {fw : List Word}
    (HK : KtwGood ktw fw) :
    ∀ {sol : List Slot} {reps : List Word},
    (∀ slot ∈ sol, SlotFrom ktw slot) →
    List.Forall₂ (fun slot w => w ∈ slot) sol reps →
    (reps.map wordMS).sum = slotsMS sol := by
  intro sol reps hfrom hf
  induction hf with
  | nil => simp [slotsMS]
  | @cons slot rep sol' reps' hrel hrest ih =>
      obtain ⟨k, hk⟩ := hfrom slot (List.mem_cons.mpr (Or.inl rfl))
      obtain ⟨hne, hall⟩ := HK k slot hk
      have h1 : wordMS rep = (k : Multiset Char) := (hall rep hrel).2
      have h2 : msOfSlot slot = (k : Multiset Char) := by
        have hh := (hall (slot.headD []) (headD_mem hne [])).2
        simpa [msOfSlot] using hh
      have h3 := ih (fun s hs => hfrom s (List.mem_cons.mpr (Or.inr hs)))
      rw [show slotsMS (slot :: sol') = msOfSlot slot + slotsMS sol' from by
        rw [slotsMS, slotsMS, List.map_cons, List.sum_cons]]
      rw [List.map_cons, List.sum_cons, h1, h2, h3]

/-- Well-formedness of the root trie produced by `build_trie`. -/
theorem buildTrie_root_WF (shawWords : List Word) (posOf : Word → List String)
    (targetLetters : List Char) (excludeWords : List Word) (excludePos : List String) :
    NodeWF (buildTrie shawWords posOf targetLetters excludeWords excludePos).root [] := by
  have hroot : (buildTrie shawWords posOf targetLetters excludeWords excludePos).root =
      sortChildren
        (letterOrderOf (filteredWords shawWords posOf targetLetters excludeWords excludePos))
        (((keyToWordsOf
            (letterOrderOf (filteredWords shawWords posOf targetLetters excludeWords excludePos))
            (filteredWords shawWords posOf targetLetters excludeWords excludePos)).map
          Prod.fst).foldl addKey emptyNode) := rfl
  rw [hroot]
  exact nodeWF_sortChildren _ (nodeWF_foldl_addKey _ emptyNode (nodeWF_empty []))

/-- Claim C1: for every solution returned by `solve_pangram` and for every
choice of one representative word per bracketed anagram group, the multiset
union of the representatives' letters is exactly the target letter
multiset. -/
theorem solvePangram_exhausts_target (shawWords : List Word)
    (posOf : Word → List String) (targetLetters : List Char)
    (maxSolutions : Option Nat) (excludeWords : List Word) (excludePos : List String)
    {sol : List Slot}
    (hsol : sol ∈ solvePangram shawWords posOf targetLetters maxSolutions
      excludeWords excludePos)
    {reps : List Word}
    (hreps : List.Forall₂ (fun slot w => w ∈ slot) sol reps) :
    (reps.map wordMS).sum = (targetLetters : Multiset Char) := by
  by_cases hroot : (buildTrie shawWords posOf targetLetters excludeWords
      excludePos).root.children.isEmpty
  · rw [show solvePangram shawWords posOf targetLetters maxSolutions excludeWords
        excludePos = [] from by simp [solvePangram, hroot]] at hsol
    cases hsol
  · rw [show solvePangram shawWords posOf targetLetters maxSolutions excludeWords
        excludePos = (search ⟨(buildTrie shawWords posOf targetLetters excludeWords
            excludePos).letterOrder,
          (buildTrie shawWords posOf targetLetters excludeWords excludePos).root,
          (buildTrie shawWords posOf targetLetters excludeWords excludePos).keyToWords⟩
          maxSolutions (searchFuel (targetLetters : Multiset Char))
          ⟨(targetLetters : Multiset Char), [], []⟩).solutions from by
      simp [solvePangram, hroot]] at hsol
    have HK : KtwGood (buildTrie shawWords posOf targetLetters excludeWords
        excludePos).keyToWords
        (filteredWords shawWords posOf targetLetters excludeWords excludePos) :=
      ktwGood_keyToWordsOf _ _
    have hinv := (search_invariant ⟨(buildTrie shawWords posOf targetLetters
        excludeWords excludePos).letterOrder,
      (buildTrie shawWords posOf targetLetters excludeWords excludePos).root,
      (buildTrie shawWords posOf targetLetters excludeWords excludePos).keyToWords⟩
      maxSolutions
      (filteredWords shawWords posOf targetLetters excludeWords excludePos)
      (buildTrie_root_WF shawWords posOf targetLetters excludeWords excludePos)
      HK (searchFuel (targetLetters : Multiset Char))).1
      ⟨(targetLetters : Multiset Char), [], []⟩ sol hsol
    rcases hinv with h | ⟨ext, hext, hfrom, hms⟩
    · cases h
    · dsimp only at hext hfrom hms
      rw [List.nil_append] at hext
      subst hext
      rw [reps_sum_eq_slotsMS HK hfrom hreps]
      exact hms

unseal search findWordsFromRoot searchTrie trieLoop sortChildren in
set_option maxRecDepth 4000 in
/-- Witness for C1: in the concrete a/b run the unique solution consists of
the slots of "b" and "a", whose representatives exhaust the target "ab". -/
theorem solvePangram_exhausts_target_witness :
    [[['b']], [['a']]] ∈ solvePangram exWordsAB exPos exTargetAB none [] [] ∧
    (([['b'], ['a']] : List Word).map wordMS).sum = (exTargetAB : Multiset Char) := by
  have hreps : List.Forall₂ (fun slot w => w ∈ slot)
      ([[['b']], [['a']]] : List Slot) ([['b'], ['a']] : List Word) := by
    refine List.Forall₂.cons (by decide) (List.Forall₂.cons (by decide) List.Forall₂.nil)
  refine ⟨by decide, ?_⟩
  exact @solvePangram_exhausts_target exWordsAB exPos exTargetAB none [] []
    [[['b']], [['a']]] (by decide) [['b'], ['a']] hreps

/-- Claim C5: every word appearing in any slot of any solution uses only
target-alphabet letters, is not an excluded word, and carries no excluded
part-of-speech tag. -/
theorem solvePangram_solutions_filtered (shawWords : List Word)
    (posOf : Word → List String) (targetLetters : List Char)
    (maxSolutions : Option Nat) (excludeWords : List Word) (excludePos : List String)
    {sol : List Slot} {slot : Slot} {w : Word}
    (hsol : sol ∈ solvePangram shawWords posOf targetLetters maxSolutions
      excludeWords excludePos)
    (hslot : slot ∈ sol) (hw : w ∈ slot) :
    (∀ c ∈ w, c ∈ targetLetters) ∧ w ∉ excludeWords ∧
      ∀ p ∈ posOf w, p ∉ excludePos := by
  by_cases hroot : (buildTrie shawWords posOf targetLetters excludeWords
      excludePos).root.children.isEmpty
  · rw [show solvePangram shawWords posOf targetLetters maxSolutions excludeWords
        excludePos = [] from by simp [solvePangram, hroot]] at hsol
    cases hsol
  · rw [show solvePangram shawWords posOf targetLetters maxSolutions excludeWords
        excludePos = (search ⟨(buildTrie shawWords posOf targetLetters excludeWords
            excludePos).letterOrder,
          (buildTrie shawWords posOf targetLetters excludeWords excludePos).root,
          (buildTrie shawWords posOf targetLetters excludeWords excludePos).keyToWords⟩
          maxSolutions (searchFuel (targetLetters : Multiset Char))
          ⟨(targetLetters : Multiset Char), [], []⟩).solutions from by
      simp [solvePangram, hroot]] at hsol
    have HK : KtwGood (buildTrie shawWords posOf targetLetters excludeWords
        excludePos).keyToWords
        (filteredWords shawWords posOf targetLetters excludeWords excludePos) :=
      ktwGood_keyToWordsOf _ _
    have hinv := (search_invariant ⟨(buildTrie shawWords posOf targetLetters
        excludeWords excludePos).letterOrder,
      (buildTrie shawWords posOf targetLetters excludeWords excludePos).root,
      (buildTrie shawWords posOf targetLetters excludeWords excludePos).keyToWords⟩
      maxSolutions
      (filteredWords shawWords posOf targetLetters excludeWords excludePos)
      (buildTrie_root_WF shawWords posOf targetLetters excludeWords excludePos)
      HK (searchFuel (targetLetters : Multiset Char))).1
      ⟨(targetLetters : Multiset Char), [], []⟩ sol hsol
    rcases hinv with h | ⟨ext, hext, hfrom, hms⟩
    · cases h
    · dsimp only at hext hfrom
      rw [List.nil_append] at hext
      subst hext
      obtain ⟨k, hk⟩ := hfrom slot hslot
      obtain ⟨hne, hall⟩ := HK k slot hk
      have hfw := (hall w hw).1
      obtain ⟨_, hnex, hnep, hsub⟩ := mem_filteredWords hfw
      exact ⟨hsub, hnex, hnep⟩

unseal search findWordsFromRoot searchTrie trieLoop sortChildren in
set_option maxRecDepth 4000 in
/-- Witness for C5: the word "b" of the first slot of the concrete a/b
run's solution satisfies all three filter conditions. -/
theorem solvePangram_solutions_filtered_witness :
    (∀ c ∈ (['b'] : Word), c ∈ exTargetAB) ∧ (['b'] : Word) ∉ ([] : List Word) ∧
      ∀ p ∈ exPos ['b'], p ∉ ([] : List String) := by
  exact @solvePangram_solutions_filtered exWordsAB exPos exTargetAB none [] []
    [[['b']], [['a']]] [['b']] ['b'] (by decide) (by decide) (by decide)

/-! ### Reachable search states and the rarest-letter scan (C2) -/

/-- The remaining multiset of every reachable frame is bounded by the
initial target multiset: the search only ever consumes available
letters. -/
theorem reach_remaining_le (ctx : Ctx) (cap : Option Nat) (F0 : Nat)
    (R0 : Multiset Char) :
    ∀ fr, Reach ctx cap F0 R0 fr → fr.remaining ≤ R0 := by
  intro fr h
  induction h with
  | init => simp [Frame.remaining]
  | toFindRoot h1 h2 h3 h4 ih => simpa [Frame.remaining] using ih
  | enterTrie h1 h2 h3 ih =>
      simp only [Frame.remaining] at ih ⊢
      exact le_trans (Multiset.erase_le _ _) ih
  | startLoop h1 h2 ih => simpa [Frame.remaining] using ih
  | loopSkip h1 h2 ih => simpa [Frame.remaining] using ih
  | loopEnterChild h1 h2 ih =>
      simp only [Frame.remaining] at ih ⊢
      exact le_trans (Multiset.erase_le _ _) ih
  | loopNext h1 h2 hst hcap ih =>
      rename_i f l c rest st st'
      simp only [Frame.remaining] at ih ⊢
      have hrest := ((restores ctx cap f).2.2 c
        ⟨st.remaining.erase l, st.currentLetters ++ [l],
          st.currentWords, st.solutions⟩).1
      have hrem : st'.remaining = st.remaining := by
        rw [hst]
        dsimp only
        rw [hrest]
        dsimp only
        exact Multiset.cons_erase (Multiset.count_pos.mp h2)
      rw [hrem]
      exact ih
  | acceptWord h1 h2 h3 h4 h5 h6 h7 h8 ih =>
      rename_i f node st k ws
      simp only [Frame.remaining] at ih ⊢
      have hloop := (trieLoop_restores ctx cap f
        (fun n s => (restores ctx cap f).2.2 n s) node.children st).1
      rw [hloop]
      exact ih

/-- Amended claim C2: whenever every letter of the target multiset occurs
in `letter_order` (that is, in some filtered word), the rarest-letter scan
of `_find_words_from_root` yields a letter at every reachable state with a
non-zero `remaining`; without that hypothesis the scan can fall through
(see the counterexample), and the code then simply returns with no descent.
The spec's justification is wrong because remaining letters come from the
target, not from the filtered pool. -/
theorem findRarest_succeeds_of_target_covered (ctx : Ctx) (cap : Option Nat)
    (F0 : Nat) (R0 : Multiset Char)
    (hcov : ∀ c ∈ R0, c ∈ ctx.letterOrder)
    {f : Nat} {st : SearchSt}
    (hreach : Reach ctx cap F0 R0 (.findRootF f st))
    (hnz : st.remaining ≠ 0) :
    ∃ l, findRarest ctx.letterOrder st.remaining = some l := by
  have hle : st.remaining ≤ R0 := by
    simpa [Frame.remaining] using
      reach_remaining_le ctx cap F0 R0 (.findRootF f st) hreach
  obtain ⟨c, hc⟩ := Multiset.exists_mem_of_ne_zero hnz
  have hclo : c ∈ ctx.letterOrder := hcov c (Multiset.mem_of_le hle hc)
  have hsome : (ctx.letterOrder.find? (fun x => 0 < st.remaining.count x)).isSome :=
    List.find?_isSome.mpr ⟨c, hclo, by simpa using Multiset.count_pos.mpr hc⟩
  rcases Option.isSome_iff_exists.mp hsome with ⟨l, hl⟩
  exact ⟨l, hl⟩

/-- Witness for the amended C2: with the a/b lexicon both target letters
occur in `letter_order`, and the scan succeeds at the initial reachable
`_find_words_from_root` state. -/
theorem findRarest_succeeds_of_target_covered_witness :
    ∃ l, findRarest exCtxAB.letterOrder ((exTargetAB : List Char) : Multiset Char) =
      some l := by
  have h0 : Reach exCtxAB none (searchFuel ((exTargetAB : List Char) : Multiset Char))
      ((exTargetAB : List Char) : Multiset Char)
      (.searchF (searchFuel ((exTargetAB : List Char) : Multiset Char))
        ⟨((exTargetAB : List Char) : Multiset Char), [], []⟩) := Reach.init
  have h1 : Reach exCtxAB none (searchFuel ((exTargetAB : List Char) : Multiset Char))
      ((exTargetAB : List Char) : Multiset Char)
      (.findRootF 8 ⟨((exTargetAB : List Char) : Multiset Char), [], []⟩) :=
    Reach.toFindRoot h0 (by decide) (by decide) (by decide)
  exact findRarest_succeeds_of_target_covered exCtxAB none
    (searchFuel ((exTargetAB : List Char) : Multiset Char))
    ((exTargetAB : List Char) : Multiset Char)
    (by decide) h1 (by decide)

unseal search findWordsFromRoot searchTrie trieLoop sortChildren in
set_option maxRecDepth 4000 in
/-- Counterexample to claim C2 as stated: with the lexicon {"a"} and the
target multiset "ab" (the letter `b` occurs in no filtered word, so it is
absent from `letter_order`), the solve reaches `_find_words_from_root`
with the non-zero remaining multiset {b} after accepting the word "a", and
the rarest-letter scan falls through with no letter found. -/
theorem findRarest_fallthrough_reachable :
    Reach exCtxA none (searchFuel ((exTargetAB : List Char) : Multiset Char))
      ((exTargetAB : List Char) : Multiset Char)
      (.findRootF 5 ⟨(((exTargetAB : List Char) : Multiset Char)).erase 'a',
        [[['a']]], []⟩) ∧
    (((exTargetAB : List Char) : Multiset Char)).erase 'a' ≠ 0 ∧
    findRarest exCtxA.letterOrder
      ((((exTargetAB : List Char) : Multiset Char)).erase 'a') = none := by
  refine ⟨?_, by decide, by decide⟩
  have h0 : Reach exCtxA none (searchFuel ((exTargetAB : List Char) : Multiset Char))
      ((exTargetAB : List Char) : Multiset Char)
      (.searchF (searchFuel ((exTargetAB : List Char) : Multiset Char))
        ⟨((exTargetAB : List Char) : Multiset Char), [], []⟩) := Reach.init
  have h1 : Reach exCtxA none (searchFuel ((exTargetAB : List Char) : Multiset Char))
      ((exTargetAB : List Char) : Multiset Char)
      (.findRootF 8 ⟨((exTargetAB : List Char) : Multiset Char), [], []⟩) :=
    Reach.toFindRoot h0 (by decide) (by decide) (by decide)
  have h2 : Reach exCtxA none (searchFuel ((exTargetAB : List Char) : Multiset Char))
      ((exTargetAB : List Char) : Multiset Char)
      (.trieF 7 exNodeA ⟨(((exTargetAB : List Char) : Multiset Char)).erase 'a',
        ['a'], [], []⟩) :=
    Reach.enterTrie h1 (by decide) (by rfl)
  have h3 := Reach.acceptWord h2 (by rfl) (by rfl)
    (show exNodeA.isWord = true from rfl)
    (show exNodeA.key = some ['a'] from rfl)
    (by decide)
    (show lookupKey exCtxA.keyToWords ['a'] = some [['a']] from by rfl)
    (by decide)
  have hframe : (Frame.searchF 6
      ⟨(trieLoop exCtxA none 6 exNodeA.children
          ⟨(((exTargetAB : List Char) : Multiset Char)).erase 'a',
            ['a'], [], []⟩).1.remaining,
        (trieLoop exCtxA none 6 exNodeA.children
          ⟨(((exTargetAB : List Char) : Multiset Char)).erase 'a',
            ['a'], [], []⟩).1.currentWords ++ [[['a']]],
        (trieLoop exCtxA none 6 exNodeA.children
          ⟨(((exTargetAB : List Char) : Multiset Char)).erase 'a',
            ['a'], [], []⟩).1.solutions⟩) =
      (Frame.searchF 6 ⟨(((exTargetAB : List Char) : Multiset Char)).erase 'a',
        [[['a']]], []⟩) := by
    rfl
  rw [hframe] at h3
  exact Reach.toFindRoot h3 (by decide) (by decide) (by decide)

end Shav
